import Mathlib

/-!
Sparse ICP (`IcpOptimizer.cpp`): embedding and verified properties.

The C++ source works on `double` matrices (Eigen).  The embedding keeps the
program text and abstracts the number type: every function is written over a
scalar type `S` that offers the arithmetic the source uses.  Two scalar types
are used in the theorems:

* a field `K` (the rationals, the reals): the idealised arithmetic of finite
  values, used for the linear-algebra functions;
* `Dbl K`: a value of `K` or `nonFinite`, which stands for a double that is
  not a finite real (NaN or an infinity).  It is absorbing for the arithmetic
  and every comparison with it is false, as for NaN.  It is used where the
  source can divide by zero or leave the domain of `pow`.

Library code that is not part of the repository is a parameter of the
function that calls it: `pow` and `sqrt` (libm), the Jacobi SVD and the
eigen-solver (Eigen), the k-nearest-neighbour query (nanoflann).
Console output is not modelled.
-/

namespace IcpSparse

/-! ## Scalars -/

/-- A double: `fin x` is the finite real `x`, `nonFinite` is a value that is
not a finite real (NaN or an infinity). -/
inductive Dbl (K : Type) where
  | fin (x : K)
  | nonFinite
  deriving DecidableEq

namespace Dbl

variable {K : Type}

/-- Lifts a binary operation on finite values; a non-finite operand gives a
non-finite result. -/
def lift2 (f : K → K → K) : Dbl K → Dbl K → Dbl K
  | fin x, fin y => fin (f x y)
  | _, _ => nonFinite

theorem lift2_nonFinite_right (f : K → K → K) (a : Dbl K) : lift2 f a nonFinite = nonFinite := by
  cases a <;> rfl

instance [Zero K] : Zero (Dbl K) := ⟨fin 0⟩
instance [Add K] : Add (Dbl K) := ⟨lift2 (· + ·)⟩

/-- Addition of doubles with the zero `fin 0`: a commutative monoid. -/
instance [AddCommMonoid K] : AddCommMonoid (Dbl K) where
  nsmul := nsmulRec
  add_assoc a b c := by
    cases a <;> cases b <;> cases c <;> first | rfl | exact congrArg fin (add_assoc _ _ _)
  zero_add a := by
    cases a <;> first | rfl | exact congrArg fin (zero_add _)
  add_zero a := by
    cases a <;> first | rfl | exact congrArg fin (add_zero _)
  add_comm a b := by
    cases a <;> cases b <;> first | rfl | exact congrArg fin (add_comm _ _)

instance [One K] : One (Dbl K) := ⟨fin 1⟩
instance [NatCast K] : NatCast (Dbl K) := ⟨fun n => fin (n : K)⟩
instance [Sub K] : Sub (Dbl K) := ⟨lift2 (· - ·)⟩
instance [Mul K] : Mul (Dbl K) := ⟨lift2 (· * ·)⟩

/-- Division of doubles: a zero divisor gives a non-finite value
(`x / 0` is an infinity or NaN). -/
def div [Div K] [Zero K] [DecidableEq K] : Dbl K → Dbl K → Dbl K
  | fin x, fin y => if y = 0 then nonFinite else fin (x / y)
  | _, _ => nonFinite

instance [Div K] [Zero K] [DecidableEq K] : Div (Dbl K) := ⟨div⟩

/-- Comparison `a <= b` of doubles: false as soon as one side is not finite. -/
def le [LE K] : Dbl K → Dbl K → Prop
  | fin x, fin y => x ≤ y
  | _, _ => False

instance [LE K] : LE (Dbl K) := ⟨le⟩

instance [LE K] [DecidableRel (fun x y : K => x ≤ y)] :
    DecidableRel (fun a b : Dbl K => a ≤ b) := fun a b =>
  match a, b with
  | fin x, fin y => inferInstanceAs (Decidable (x ≤ y))
  | fin _, nonFinite => isFalse (fun h => h)
  | nonFinite, _ => isFalse (fun h => h)

/-- Comparison `a < b` of doubles: false as soon as one side is not finite. -/
def lt [LT K] : Dbl K → Dbl K → Prop
  | fin x, fin y => x < y
  | _, _ => False

instance [LT K] : LT (Dbl K) := ⟨lt⟩

instance [LT K] [DecidableRel (fun x y : K => x < y)] :
    DecidableRel (fun a b : Dbl K => a < b) := fun a b =>
  match a, b with
  | fin x, fin y => inferInstanceAs (Decidable (x < y))
  | fin _, nonFinite => isFalse (fun h => h)
  | nonFinite, _ => isFalse (fun h => h)

end Dbl

open Dbl (fin nonFinite)

/-- The C library function `pow` on doubles, over a power function `rpow`
for positive bases (C standard, annex F): `pow(x, 0) = 1` and
`pow(1, y) = 1` for every operand, NaN included; a positive base gives the
real power; `pow(0, y)` is `0` for `y > 0` and an infinity for `y < 0`; a
negative base gives the integer power when `y` is an integer and NaN
otherwise. -/
def cPow {K : Type} [LinearOrderedField K] [FloorRing K] (rpow : K → K → K)
    (a b : Dbl K) : Dbl K :=
  if b = fin 0 ∨ a = fin 1 then fin 1 else
  match a, b with
  | fin x, fin y =>
    if 0 < x then fin (rpow x y)
    else if x = 0 then (if 0 < y then fin 0 else nonFinite)
    else if Int.fract y = 0 then fin (x ^ (⌊y⌋ : ℤ)) else nonFinite
  | _, _ => nonFinite

/-- The C library function `sqrt` on doubles, over a square root `rsqrt` of
non-negative values: NaN for a negative or non-finite operand. -/
def cSqrt {K : Type} [LinearOrderedField K] (rsqrt : K → K) : Dbl K → Dbl K
  | fin x => if 0 ≤ x then fin (rsqrt x) else nonFinite
  | nonFinite => nonFinite

/-! ## Matrix types (`IcpOptimizer.h`) -/

/-- `Matrix<double,Dynamic,3>` with `n` rows: row `i` is point `i`. -/
abbrev PointCloud (S : Type) (n : Nat) := Matrix (Fin n) (Fin 3) S

/-- `Matrix<double,3,3>`. -/
abbrev RotMatrix (S : Type) := Matrix (Fin 3) (Fin 3) S

/-- `Matrix<double,3,1>`. -/
abbrev TransMatrix (S : Type) := Matrix (Fin 3) (Fin 1) S

/-- `std::pair<RotMatrix,TransMatrix>`. -/
abbrev RigidTransfo (S : Type) := RotMatrix S × TransMatrix S

/-- A point cloud together with its (dynamic) number of rows. -/
abbrev DynCloud (S : Type) := (n : Nat) × PointCloud S n

/-- The factors of `Eigen::JacobiSVD<Matrix<double,3,3>>`: the source reads
`matrixU()` and `matrixV()`. -/
structure JacobiSVD (S : Type) where
  matrixU : Matrix (Fin 3) (Fin 3) S
  singularValues : Fin 3 → S
  matrixV : Matrix (Fin 3) (Fin 3) S

section Generic

variable {S : Type} [AddCommMonoid S] [Mul S] [Sub S] [Div S] [One S] [NatCast S]

/-! ## Rigid transforms -/

/-- Eigen `t.replicate(1, n)`: the column `t` repeated `n` times. -/
def replicateCols (t : TransMatrix S) (n : Nat) : Matrix (Fin 3) (Fin n) S :=
  fun i _ => t i 0

/-- Eigen `c.replicate(n, 1)`: the row `c` repeated `n` times. -/
def replicateRows (c : Matrix (Fin 1) (Fin 3) S) (n : Nat) : PointCloud S n :=
  fun _ j => c 0 j

/-- `IcpOptimizer::movePointCloud`:
`(t.first*pointCloud.transpose()+t.second.replicate(1,pointCloud.rows())).transpose()`. -/
def movePointCloud {n : Nat} (pointCloud : PointCloud S n) (t : RigidTransfo S) :
    PointCloud S n :=
  (t.1 * pointCloud.transpose + replicateCols t.2 n).transpose

/-- `IcpOptimizer::compose`: `tNew o tOld`. -/
def compose (tNew tOld : RigidTransfo S) : RigidTransfo S :=
  (tNew.1 * tOld.1, tNew.1 * tOld.2 + tNew.2)

/-- `a.colwise().sum()/a.rows()`: the centroid of a cloud, as a row. -/
def centerOf {n : Nat} (a : PointCloud S n) : Matrix (Fin 1) (Fin 3) S :=
  fun _ j => (∑ i, a i j) / (n : S)

/-- Lines 215-225 of `rigidTransformPointToPoint`: the matrix `W` handed to
the SVD.  The centred clouds `aCenter` and `bCenter` are computed, and the
accumulation loop reads the rows of `a` and `b`. -/
def crossProductMatrixW {n : Nat} (a b : PointCloud S n) : Matrix (Fin 3) (Fin 3) S :=
  let centerA := centerOf a
  let centerB := centerOf b
  let _aCenter : PointCloud S n := a - replicateRows centerA n
  let _bCenter : PointCloud S n := b - replicateRows centerB n
  ∑ i, Matrix.vecMulVec (a i) (b i)

/-- `IcpOptimizer::rigidTransformPointToPoint` (`a` moving cloud, `b`
reference cloud, of the same length), over the SVD routine `svd`. -/
def rigidTransformPointToPoint {n : Nat} (svd : Matrix (Fin 3) (Fin 3) S → JacobiSVD S)
    (a b : PointCloud S n) : RigidTransfo S :=
  let centerA := centerOf a
  let centerB := centerOf b
  let W := crossProductMatrixW a b
  let rotation : RotMatrix S := (svd W).matrixV * (svd W).matrixU.transpose
  let translation : TransMatrix S := centerB.transpose - rotation * centerA.transpose
  (rotation, translation)

/-- `IcpOptimizer::rigidTransformPointToPlane`: the body is a `TODO` and the
identity transform is returned. -/
def rigidTransformPointToPlane {n m : Nat} (_a _b : PointCloud S n) (_n : PointCloud S m) :
    RigidTransfo S :=
  (1, 0)

end Generic

/-! ## The shrink operator -/

section Shrink

variable {S : Type} [AddCommMonoid S] [Mul S] [Sub S] [Div S] [One S] [NatCast S]
  [LE S] [DecidableRel (fun a b : S => a ≤ b)]

/-- Eigen `h.norm()` of a 3-vector: the square root of the sum of the squared
coefficients. -/
def norm (sqrt : S → S) (h : TransMatrix S) : S :=
  sqrt (h 0 0 * h 0 0 + h 1 0 * h 1 0 + h 2 0 * h 2 0)

/-- The value `alpha_a` of `shrink`: `pow((2./mu)*(1.-p),1./(2.-p))`. -/
def shrinkAlpha (pow : S → S → S) (mu p : S) : S :=
  pow ((2 / mu) * (1 - p)) (1 / (2 - p))

/-- The threshold `hTilde` of `shrink`: `alpha_a+(p/mu)*pow(alpha_a,p-1)`. -/
def shrinkThreshold (pow : S → S → S) (mu p : S) : S :=
  let alpha_a := shrinkAlpha pow mu p
  alpha_a + (p / mu) * pow alpha_a (p - 1)

/-- One pass of the loop of `shrink`:
`beta = 1 - (p/mu)*pow(hNorm,p-2.)*pow(beta,p-1)`. -/
def shrinkIter (pow : S → S → S) (mu p hNorm beta : S) : S :=
  1 - (p / mu) * pow hNorm (p - 2) * pow beta (p - 1)

/-- `IcpOptimizer::shrink`, over the libm functions `pow` and `sqrt`; `mu`,
`p` and `nbIterShrink` are the members of the optimizer it reads. -/
def shrink (pow : S → S → S) (sqrt : S → S) (mu p : S) (nbIterShrink : Int)
    (h : TransMatrix S) : TransMatrix S :=
  let alpha_a := shrinkAlpha pow mu p
  let hTilde := shrinkThreshold pow mu p
  let hNorm := norm sqrt h
  if hNorm ≤ hTilde then
    (0 : S) • h
  else
    let beta := (alpha_a / hNorm + 1) / 2
    let beta := (shrinkIter pow mu p hNorm)^[nbIterShrink.toNat] beta
    beta • h

/-- The function that `shrink` optimises, as its comment states it:
`f(z) = ||z||_2^p + mu/2*||z-h||_2^2`. -/
def shrinkObjective (pow : S → S → S) (sqrt : S → S) (mu p : S) (h z : TransMatrix S) : S :=
  pow (norm sqrt z) p + mu / 2 * (norm sqrt (z - h) * norm sqrt (z - h))

end Shrink

/-! ## The optimizer -/

/-- The registration method (`IcpMethod`). -/
inductive IcpMethod where
  | pointToPoint
  | pointToPlane
  deriving DecidableEq, Repr

/-- The output of `Eigen::EigenSolver` read by `estimateNormals`: the real
parts of the eigenvalues, and the real and imaginary parts of the matrix
whose columns are the eigenvectors. -/
structure EigenSolver (S : Type) where
  eigenvaluesRe : Fin 3 → S
  eigenvectorsRe : Matrix (Fin 3) (Fin 3) S
  eigenvectorsIm : Matrix (Fin 3) (Fin 3) S

/-- The library routines the optimizer calls: libm `pow` and `sqrt`, the
Jacobi SVD and the eigen-solver of Eigen, the k-nearest-neighbour query of
the nanoflann kd-tree (`findNeighbors m cloud query k` is the content of
`ret_indexes` after the query), and the constant `DBL_MAX`. -/
structure Libs (S : Type) where
  pow : S → S → S
  sqrt : S → S
  svd : Matrix (Fin 3) (Fin 3) S → JacobiSVD S
  eigenSolver : Matrix (Fin 3) (Fin 3) S → EigenSolver S
  findNeighbors : (m : Nat) → PointCloud S m → (Fin 3 → S) → (k : Nat) → Fin k → Nat
  dblMax : S

/-- The members of `IcpOptimizer`.  `n1` and `n2` are the numbers of rows of
the two input clouds; the members that the constructor leaves
default-constructed carry their own number of rows. -/
structure IcpOptimizer (S : Type) (n1 n2 : Nat) where
  firstCloud : PointCloud S n1
  secondCloud : PointCloud S n2
  firstNormals : PointCloud S n1
  secondNormals : DynCloud S
  movingPC : DynCloud S
  movingNormals : DynCloud S
  computedTransfo : RigidTransfo S
  lambda : PointCloud S n1
  kNormals : Nat
  nbIterations : Int
  nbIterationsIn : Int
  mu : S
  nbIterShrink : Int
  p : S
  method : IcpMethod
  verbose : Bool
  hasBeenComputed : Bool

/-- The variables that the loops of `performSparceICP` update. -/
structure LoopState (S : Type) (n : Nat) where
  movingPC : PointCloud S n
  movingNormals : PointCloud S n
  computedTransfo : RigidTransfo S
  lambda : PointCloud S n

section Optimizer

variable {S : Type} [AddCommMonoid S] [Mul S] [Sub S] [Div S] [One S] [NatCast S]
  [LE S] [DecidableRel (fun a b : S => a ≤ b)] [LT S] [DecidableRel (fun a b : S => a < b)]

/-- A default-constructed `Matrix<double,Dynamic,3>`: no rows. -/
def emptyCloud : DynCloud S := ⟨0, fun i _ => i.elim0⟩

/-- Row `idx` of a cloud, `cloud.row(idx)`.  An index past the last row is
undefined in the source; the embedding reads a row of zeros there. -/
def rowAt {m : Nat} (cloud : PointCloud S m) (idx : Nat) : Fin 3 → S :=
  if h : idx < m then cloud ⟨idx, h⟩ else 0

/-- `IcpOptimizer::computeCorrespondances`: row `i` of the result is the row
of `refCloud` that the 1-nearest-neighbour query returns for row `i` of
`queryCloud`. -/
def computeCorrespondances (lib : Libs S) {m n : Nat} (refCloud : PointCloud S m)
    (queryCloud : PointCloud S n) : PointCloud S n :=
  fun i =>
    let queryPoint := queryCloud i
    let ret_indexes := lib.findNeighbors m refCloud queryPoint 1
    rowAt refCloud (ret_indexes 0)

/-- The search of `estimateNormals` for the lowest eigenvalue: starting from
`bestIndice = -1` (here `none`) and `bestVal = DBL_MAX`, index `j` replaces
the best one when its eigenvalue is strictly below `bestVal`. -/
def lowestEigenvalue (dblMax : S) (eigenvalues : Fin 3 → S) : Option (Fin 3) × S :=
  (List.finRange 3).foldl
    (fun best j => if eigenvalues j < best.2 then (some j, eigenvalues j) else best)
    (none, dblMax)

/-- `IcpOptimizer::estimateNormals`.  The eigenvector of the lowest
eigenvalue is normalised as a complex vector and its real part is kept.
With `bestIndice = -1` the column read is undefined in the source; the
embedding gives a row of zeros there. -/
def estimateNormals (lib : Libs S) {n : Nat} (pointCloud : PointCloud S n) (k : Nat) :
    PointCloud S n :=
  fun i =>
    let currentPoint := pointCloud i
    let ret_indexes := lib.findNeighbors n pointCloud currentPoint k
    let barycentre : Fin 3 → S := fun j =>
      (∑ neighbour : Fin k, rowAt pointCloud (ret_indexes neighbour) j) / (k : S)
    let centeredNN : Matrix (Fin k) (Fin 3) S := fun j =>
      rowAt pointCloud (ret_indexes j) - barycentre
    let covariance : Matrix (Fin 3) (Fin 3) S := centeredNN.transpose * centeredNN
    let eigenSolver := lib.eigenSolver covariance
    match (lowestEigenvalue lib.dblMax eigenSolver.eigenvaluesRe).1 with
    | none => 0
    | some bestIndice =>
      let squaredNorm : S := ∑ r : Fin 3,
        (eigenSolver.eigenvectorsRe r bestIndice * eigenSolver.eigenvectorsRe r bestIndice
          + eigenSolver.eigenvectorsIm r bestIndice * eigenSolver.eigenvectorsIm r bestIndice)
      fun r => eigenSolver.eigenvectorsRe r bestIndice / lib.sqrt squaredNorm

/-- The constructor `IcpOptimizer::IcpOptimizer`. -/
def IcpOptimizer.new (lib : Libs S) {n1 n2 : Nat} (_firstCloud : PointCloud S n1)
    (_secondCloud : PointCloud S n2) (_kNormals : Nat) (_nbIterations _nbIterationsIn : Int)
    (_mu : S) (_nbIterShrink : Int) (_p : S) (_method : IcpMethod) (_verbose : Bool) :
    IcpOptimizer S n1 n2 where
  firstCloud := _firstCloud
  secondCloud := _secondCloud
  kNormals := _kNormals
  nbIterations := _nbIterations
  nbIterationsIn := _nbIterationsIn
  mu := _mu
  nbIterShrink := _nbIterShrink
  p := _p
  method := _method
  verbose := _verbose
  firstNormals := estimateNormals lib _firstCloud _kNormals
  secondNormals :=
    if _method = IcpMethod.pointToPlane then ⟨n2, estimateNormals lib _secondCloud _kNormals⟩
    else emptyCloud
  movingPC := emptyCloud
  movingNormals := emptyCloud
  computedTransfo := (1, 0)
  lambda := 0
  hasBeenComputed := false

/-- One pass of the inner loop of `performSparceICP` (steps 2.1 to 2.3), for
the correspondences `matchPC` of the current outer iteration. -/
def innerIteration (lib : Libs S) {n1 n2 : Nat} (o : IcpOptimizer S n1 n2)
    (matchPC : PointCloud S n1) (st : LoopState S n1) : LoopState S n1 :=
  let h : PointCloud S n1 := st.movingPC - matchPC + st.lambda.map (· / o.mu)
  let z : PointCloud S n1 := fun i r =>
    shrink lib.pow lib.sqrt o.mu o.p o.nbIterShrink (fun r _ => h i r) r 0
  let c : PointCloud S n1 := matchPC + z - st.lambda.map (· / o.mu)
  let iterTransfo : RigidTransfo S :=
    match o.method with
    | IcpMethod.pointToPoint => rigidTransformPointToPoint lib.svd st.movingPC c
    | IcpMethod.pointToPlane => rigidTransformPointToPlane st.movingPC c o.secondNormals.2
  let movingPC := movePointCloud st.movingPC iterTransfo
  let movingNormals := (iterTransfo.1 * st.movingNormals.transpose).transpose
  let computedTransfo := compose iterTransfo st.computedTransfo
  let delta : PointCloud S n1 := movingPC - matchPC - z
  let lambda := st.lambda + o.mu • delta
  ⟨movingPC, movingNormals, computedTransfo, lambda⟩

/-- One pass of the outer loop of `performSparceICP`: the correspondences,
then `nbIterationsIn` passes of the inner loop. -/
def outerIteration (lib : Libs S) {n1 n2 : Nat} (o : IcpOptimizer S n1 n2)
    (st : LoopState S n1) : LoopState S n1 :=
  let matchPC := computeCorrespondances lib o.secondCloud st.movingPC
  (innerIteration lib o matchPC)^[o.nbIterationsIn.toNat] st

/-- The loops of `performSparceICP`, from the state set up on entry. -/
def runLoops (lib : Libs S) {n1 n2 : Nat} (o : IcpOptimizer S n1 n2) : LoopState S n1 :=
  (outerIteration lib o)^[o.nbIterations.toNat]
    ⟨o.firstCloud, o.firstNormals, o.computedTransfo, o.lambda⟩

/-- `IcpOptimizer::performSparceICP`: the returned `int` and the optimizer
after the call. -/
def performSparceICP (lib : Libs S) {n1 n2 : Nat} (o : IcpOptimizer S n1 n2) :
    Int × IcpOptimizer S n1 n2 :=
  let st := runLoops lib o
  (0, { o with
        movingPC := ⟨n1, st.movingPC⟩
        movingNormals := ⟨n1, st.movingNormals⟩
        computedTransfo := st.computedTransfo
        lambda := st.lambda
        hasBeenComputed := true })

/-- `IcpOptimizer::getFirstNormals`. -/
def getFirstNormals {n1 n2 : Nat} (o : IcpOptimizer S n1 n2) : DynCloud S :=
  ⟨n1, o.firstNormals⟩

/-- `IcpOptimizer::getMovedNormals`: `firstNormals` when `hasBeenComputed`,
`movingNormals` (after the warning) otherwise. -/
def getMovedNormals {n1 n2 : Nat} (o : IcpOptimizer S n1 n2) : DynCloud S :=
  if o.hasBeenComputed then ⟨n1, o.firstNormals⟩ else o.movingNormals

/-- `IcpOptimizer::getMovedPointCloud`: `movingPC` when `hasBeenComputed`,
`firstCloud` (after the warning) otherwise. -/
def getMovedPointCloud {n1 n2 : Nat} (o : IcpOptimizer S n1 n2) : DynCloud S :=
  if o.hasBeenComputed then o.movingPC else ⟨n1, o.firstCloud⟩

/-- `IcpOptimizer::getComputedTransfo`. -/
def getComputedTransfo {n1 n2 : Nat} (o : IcpOptimizer S n1 n2) : RigidTransfo S :=
  o.computedTransfo

end Optimizer

/-! ## Reference notions used by the statements -/

/-- A singular value decomposition `W = U * diag(sigma) * V^T`: `U` and `V`
orthogonal, the singular values non-negative. -/
def IsSVD {K : Type} [LinearOrderedField K] (W : Matrix (Fin 3) (Fin 3) K)
    (d : JacobiSVD K) : Prop :=
  d.matrixU.transpose * d.matrixU = 1 ∧ d.matrixV.transpose * d.matrixV = 1 ∧
    (∀ i, 0 ≤ d.singularValues i) ∧
    W = d.matrixU * Matrix.diagonal d.singularValues * d.matrixV.transpose

/-- The cross-covariance as the specification words it (section 4.5):
compute the centroids, centre both sets, and sum the products of the centred
rows. -/
def centeredCrossCovariance {K : Type} [Field K] {n : Nat} (a b : PointCloud K n) :
    Matrix (Fin 3) (Fin 3) K :=
  let aCenter : PointCloud K n := a - replicateRows (centerOf a) n
  let bCenter : PointCloud K n := b - replicateRows (centerOf b) n
  ∑ i, Matrix.vecMulVec (aCenter i) (bCenter i)

/-- A one-point cloud: the point `(1,0,0)`. -/
def unitCloud (K : Type) [Field K] : PointCloud K 1 := !![1, 0, 0]

/-- The vertices of a regular tetrahedron centred at the origin. -/
def tetraCloud (K : Type) [Field K] : PointCloud K 4 :=
  !![1, 1, 1; 1, -1, -1; -1, 1, -1; -1, -1, 1]

/-- The mirror image of `tetraCloud` in the plane `z = 0`. -/
def tetraMirror (K : Type) [Field K] : PointCloud K 4 :=
  !![1, 1, -1; 1, -1, 1; -1, 1, 1; -1, -1, -1]

/-- A cloud of four points whose centred points span the space (centroid
`(0,1,0)`). -/
def skewCloud (K : Type) [Field K] : PointCloud K 4 :=
  !![1, -1, 1; 1, -1, -1; 1, 1, 0; -3, 5, 0]

/-- The cloud `skewCloud` translated by `(8,-4,0)`. -/
def skewCloudShifted (K : Type) [Field K] : PointCloud K 4 :=
  !![9, -5, 1; 9, -5, -1; 9, -3, 0; 5, 1, 0]

/-- The factors `U = 1`, `sigma = (4,4,4)`, `V = diag(1,1,-1)`. -/
def mirrorSVD (K : Type) [Field K] : JacobiSVD K :=
  ⟨1, ![4, 4, 4], Matrix.diagonal ![1, 1, -1]⟩

/-- The factors `U = 1`, `sigma = (20,20,2)` and `V` the rotation about the
third axis with cosine `3/5` and sine `-4/5`. -/
def skewSVD (K : Type) [Field K] : JacobiSVD K :=
  ⟨1, ![20, 20, 2], !![3/5, 4/5, 0; -4/5, 3/5, 0; 0, 0, 1]⟩

/-- Library routines that ignore their arguments and return constants, for
the evaluation of statements whose truth does not depend on the values that
the libraries compute. -/
def stubLibs (S : Type) [Zero S] [One S] : Libs S :=
  ⟨fun _ _ => 1, fun _ => 1, fun _ => ⟨1, 0, 1⟩, fun _ => ⟨0, 1, 0⟩, fun _ _ _ _ _ => 0, 1⟩

/-- The squared Euclidean distance between two points. -/
def sqDist {K : Type} [Field K] (x y : Fin 3 → K) : K :=
  ∑ r, (x r - y r) * (x r - y r)

/-- An exact nearest-neighbour search by exhaustion: the index of the first
row of `refCloud` whose squared distance to `query` is least (0 for a cloud
without rows). -/
def nearestIndex {K : Type} [LinearOrderedField K] {m : Nat} (refCloud : PointCloud K m)
    (query : Fin 3 → K) : Nat :=
  match List.argmin (fun j : Fin m => sqDist (refCloud j) query) (List.finRange m) with
  | some j => j.val
  | none => 0

/-- The library routines of `stubLibs` with the nearest-neighbour query
answered by the exhaustive search `nearestIndex`. -/
def searchLibs (K : Type) [LinearOrderedField K] : Libs K :=
  ⟨fun _ _ => 1, fun _ => 1, fun _ => ⟨1, 0, 1⟩, fun _ => ⟨0, 1, 0⟩,
    fun _ refCloud query _ _ => nearestIndex refCloud query, 1⟩

/-- The neighbours that `estimateNormals` reads for point `i`: the rows of
the cloud at the indices that the query returns. -/
def neighbourPoints {S : Type} [AddCommMonoid S] (lib : Libs S) {n : Nat} (pointCloud : PointCloud S n)
    (k : Nat) (i : Fin n) : Fin k → Fin 3 → S :=
  fun j => rowAt pointCloud (lib.findNeighbors n pointCloud (pointCloud i) k j)

/-- The matrix `covariance` that `estimateNormals` hands to the eigen-solver
for point `i`. -/
def neighbourCovariance {S : Type} [AddCommMonoid S] [Mul S] [Sub S] [Div S] [NatCast S]
    (lib : Libs S) {n : Nat} (pointCloud : PointCloud S n) (k : Nat) (i : Fin n) :
    Matrix (Fin 3) (Fin 3) S :=
  let ret_indexes := lib.findNeighbors n pointCloud (pointCloud i) k
  let barycentre : Fin 3 → S := fun j =>
    (∑ neighbour : Fin k, rowAt pointCloud (ret_indexes neighbour) j) / (k : S)
  let centeredNN : Matrix (Fin k) (Fin 3) S := fun j =>
    rowAt pointCloud (ret_indexes j) - barycentre
  centeredNN.transpose * centeredNN

/-- An exact eigen-decomposition of the real matrix `C` with real
eigenvalues, as the eigen-solver reports it: the eigenvectors have no
imaginary part, they are the columns of an invertible matrix `V`, and
`C * V = V * diag(eigenvalues)`. -/
def IsEigenDecomposition {K : Type} [Field K] (C : Matrix (Fin 3) (Fin 3) K)
    (e : EigenSolver K) : Prop :=
  e.eigenvectorsIm = 0 ∧ e.eigenvectorsRe.det ≠ 0 ∧
    C * e.eigenvectorsRe = e.eigenvectorsRe * Matrix.diagonal e.eigenvaluesRe

/-- Four points of the plane `z = 0`, not on a line. -/
def planarCloud (K : Type) [Field K] : PointCloud K 4 :=
  !![1, 0, 0; -1, 0, 0; 0, 1, 0; 0, -1, 0]

/-! ## Lemmas -/

section Lemmas

theorem replicateCols_mul_add {K : Type} [Semiring K] (R : RotMatrix K) (t u : TransMatrix K)
    (n : Nat) : replicateCols (R * t + u) n = R * replicateCols t n + replicateCols u n := by
  ext i j
  simp [replicateCols, Matrix.mul_apply, Matrix.add_apply]

theorem rigidTransformPointToPoint_fst {K : Type} [Field K] {n : Nat}
    (svd : Matrix (Fin 3) (Fin 3) K → JacobiSVD K) (a b : PointCloud K n) :
    (rigidTransformPointToPoint svd a b).1 =
      (svd (crossProductMatrixW a b)).matrixV *
        (svd (crossProductMatrixW a b)).matrixU.transpose := rfl

theorem crossProductMatrixW_eq {K : Type} [Field K] {n : Nat} (a b : PointCloud K n) :
    crossProductMatrixW a b = ∑ i, Matrix.vecMulVec (a i) (b i) := rfl

theorem crossProductMatrixW_tetra (K : Type) [Field K] :
    crossProductMatrixW (tetraCloud K) (tetraMirror K) = Matrix.diagonal ![4, 4, -4] := by
  ext i j
  fin_cases i <;> fin_cases j <;>
    simp [crossProductMatrixW_eq, Fin.sum_univ_four, Matrix.vecMulVec, tetraCloud,
      tetraMirror, Matrix.sum_apply, Matrix.vecHead, Matrix.vecTail] <;> norm_num

theorem crossProductMatrixW_skew (K : Type) [Field K] :
    crossProductMatrixW (skewCloud K) (skewCloudShifted K)
      = !![12, -16, 0; 16, 12, 0; 0, 0, 2] := by
  ext i j
  fin_cases i <;> fin_cases j <;>
    simp [crossProductMatrixW_eq, Fin.sum_univ_four, Matrix.vecMulVec, skewCloud,
      skewCloudShifted, Matrix.sum_apply, Matrix.vecHead, Matrix.vecTail] <;> norm_num

/-- The determinant of an orthogonal matrix squares to one. -/
theorem det_sq_of_orthogonal {K : Type} [Field K] (U : Matrix (Fin 3) (Fin 3) K)
    (h : U.transpose * U = 1) : U.det * U.det = 1 := by
  have := congrArg Matrix.det h
  simpa [Matrix.det_mul, Matrix.det_transpose] using this

theorem isSVD_mirrorSVD (K : Type) [LinearOrderedField K] :
    IsSVD (crossProductMatrixW (tetraCloud K) (tetraMirror K)) (mirrorSVD K) := by
  refine ⟨by simp [mirrorSVD], ?_, ?_, ?_⟩
  · ext i j
    fin_cases i <;> fin_cases j <;> simp [mirrorSVD, Matrix.mul_apply, Fin.sum_univ_three]
  · intro i
    fin_cases i <;> simp [mirrorSVD]
  · rw [crossProductMatrixW_tetra]
    ext i j
    fin_cases i <;> fin_cases j <;> simp [mirrorSVD, Matrix.mul_apply, Fin.sum_univ_three]

theorem isSVD_skewSVD (K : Type) [LinearOrderedField K] :
    IsSVD (crossProductMatrixW (skewCloud K) (skewCloudShifted K)) (skewSVD K) := by
  refine ⟨by simp [skewSVD], ?_, ?_, ?_⟩
  · ext i j
    fin_cases i <;> fin_cases j <;>
      simp [skewSVD, Matrix.mul_apply, Fin.sum_univ_three, Matrix.vecHead, Matrix.vecTail] <;>
      norm_num
  · intro i
    fin_cases i <;> simp [skewSVD]
  · rw [crossProductMatrixW_skew]
    ext i j
    fin_cases i <;> fin_cases j <;>
      simp [skewSVD, Matrix.mul_apply, Fin.sum_univ_three, Matrix.vecHead, Matrix.vecTail,
        Matrix.diagonal] <;>
      norm_num

/-- The loops of `performSparceICP` keep the moving normals equal to the
first normals rotated by the rotation of the accumulated transform. -/
theorem runLoops_movingNormals {K : Type} [LinearOrderedField K] (lib : Libs K) {n1 n2 : Nat}
    (o : IcpOptimizer K n1 n2) (h0 : o.computedTransfo.1 = 1) :
    (runLoops lib o).movingNormals
      = ((runLoops lib o).computedTransfo.1 * o.firstNormals.transpose).transpose := by
  have inner : ∀ (matchPC : PointCloud K n1) (k : Nat) (st : LoopState K n1),
      st.movingNormals = (st.computedTransfo.1 * o.firstNormals.transpose).transpose →
      ((innerIteration lib o matchPC)^[k] st).movingNormals
        = (((innerIteration lib o matchPC)^[k] st).computedTransfo.1
            * o.firstNormals.transpose).transpose := by
    intro matchPC k
    induction k with
    | zero => intro st h; simpa using h
    | succ k ih =>
      intro st h
      rw [Function.iterate_succ_apply]
      apply ih
      simp only [innerIteration, compose, h, Matrix.transpose_transpose, Matrix.mul_assoc]
  have outer : ∀ (k : Nat) (st : LoopState K n1),
      st.movingNormals = (st.computedTransfo.1 * o.firstNormals.transpose).transpose →
      ((outerIteration lib o)^[k] st).movingNormals
        = (((outerIteration lib o)^[k] st).computedTransfo.1
            * o.firstNormals.transpose).transpose := by
    intro k
    induction k with
    | zero => intro st h; simpa using h
    | succ k ih =>
      intro st h
      rw [Function.iterate_succ_apply]
      apply ih
      exact inner _ _ _ h
  apply outer
  simp [h0]

end Lemmas

/-! ### Arithmetic of doubles on finite values -/

section DblLemmas

variable {K : Type} [LinearOrderedField K]

@[simp] theorem Dbl.zero_eq : (0 : Dbl K) = fin 0 := rfl
@[simp] theorem Dbl.one_eq : (1 : Dbl K) = fin 1 := rfl
@[simp] theorem Dbl.two_eq : (2 : Dbl K) = fin 2 := rfl
@[simp] theorem Dbl.fin_add (x y : K) : fin x + fin y = fin (x + y) := rfl
@[simp] theorem Dbl.fin_sub (x y : K) : fin x - fin y = fin (x - y) := rfl
@[simp] theorem Dbl.fin_mul (x y : K) : fin x * fin y = fin (x * y) := rfl
@[simp] theorem Dbl.nonFinite_add (a : Dbl K) : (nonFinite : Dbl K) + a = nonFinite := rfl
@[simp] theorem Dbl.add_nonFinite (a : Dbl K) : a + (nonFinite : Dbl K) = nonFinite :=
  Dbl.lift2_nonFinite_right _ a
@[simp] theorem Dbl.nonFinite_sub (a : Dbl K) : (nonFinite : Dbl K) - a = nonFinite := rfl
@[simp] theorem Dbl.sub_nonFinite (a : Dbl K) : a - (nonFinite : Dbl K) = nonFinite :=
  Dbl.lift2_nonFinite_right _ a
@[simp] theorem Dbl.nonFinite_mul (a : Dbl K) : (nonFinite : Dbl K) * a = nonFinite := rfl
@[simp] theorem Dbl.mul_nonFinite (a : Dbl K) : a * (nonFinite : Dbl K) = nonFinite :=
  Dbl.lift2_nonFinite_right _ a
@[simp] theorem Dbl.nonFinite_div (a : Dbl K) : (nonFinite : Dbl K) / a = nonFinite := rfl
@[simp] theorem Dbl.div_nonFinite (a : Dbl K) : a / (nonFinite : Dbl K) = nonFinite := by
  cases a <;> rfl

theorem Dbl.fin_div (x y : K) :
    fin x / fin y = if y = 0 then nonFinite else fin (x / y) := rfl

@[simp] theorem Dbl.fin_div_of_ne (x : K) {y : K} (hy : y ≠ 0) :
    fin x / fin y = fin (x / y) := by
  rw [Dbl.fin_div, if_neg hy]

@[simp] theorem Dbl.fin_div_zero (x : K) : fin x / fin 0 = nonFinite := by
  rw [Dbl.fin_div, if_pos rfl]

@[simp] theorem Dbl.fin_le_fin (x y : K) : fin x ≤ fin y ↔ x ≤ y := Iff.rfl
@[simp] theorem Dbl.not_le_nonFinite (a : Dbl K) : ¬ a ≤ (nonFinite : Dbl K) := by
  cases a <;> exact fun h => h
@[simp] theorem Dbl.not_nonFinite_le (a : Dbl K) : ¬ (nonFinite : Dbl K) ≤ a := fun h => h

theorem Dbl.le_iff (a b : Dbl K) : a ≤ b ↔ ∃ x y, a = fin x ∧ b = fin y ∧ x ≤ y := by
  cases a with
  | nonFinite => exact ⟨fun h => h.elim, fun ⟨_, _, h, _⟩ => by cases h⟩
  | fin x =>
    cases b with
    | nonFinite => exact ⟨fun h => h.elim, fun ⟨_, _, _, h, _⟩ => by cases h⟩
    | fin y =>
      exact ⟨fun h => ⟨x, y, rfl, rfl, h⟩, fun ⟨_, _, h1, h2, h3⟩ => by
        cases h1; cases h2; exact h3⟩

end DblLemmas

/-! ### The shrink operator on doubles -/

section ShrinkLemmas

/-- On a non-negative base, with a positive base or a non-negative exponent,
the C `pow` is the real power. -/
theorem cPow_of_nonneg {x y : ℝ} (hx : 0 ≤ x) (h : 0 < x ∨ 0 ≤ y) :
    cPow Real.rpow (fin x) (fin y) = fin (x ^ y) := by
  unfold cPow
  by_cases h1 : (fin y : Dbl ℝ) = fin 0 ∨ (fin x : Dbl ℝ) = fin 1
  · rw [if_pos h1]
    rcases h1 with h1 | h1
    · cases h1; simp
    · cases h1; simp
  · rw [if_neg h1]
    have hy : y ≠ 0 := fun h0 => h1 (Or.inl (by rw [h0]))
    by_cases hpos : 0 < x
    · simp only [if_pos hpos]; rfl
    · have hx0 : x = 0 := le_antisymm (not_lt.mp hpos) hx
      have hy0 : 0 < y := by
        rcases h with h | h
        · exact absurd h hpos
        · exact lt_of_le_of_ne h (Ne.symm hy)
      subst hx0
      simp only [lt_self_iff_false, if_false, if_true, if_pos hy0, Real.zero_rpow hy]

/-- A negative base with an exponent that is not an integer: NaN. -/
theorem cPow_of_neg {x y : ℝ} (hx : x < 0) (hy : Int.fract y ≠ 0) :
    cPow Real.rpow (fin x) (fin y) = nonFinite := by
  unfold cPow
  have h1 : ¬ ((fin y : Dbl ℝ) = fin 0 ∨ (fin x : Dbl ℝ) = fin 1) := by
    rintro (h | h)
    · cases h; simp at hy
    · cases h; linarith
  rw [if_neg h1]
  simp only [if_neg (not_lt.mpr hx.le), if_neg hx.ne, if_neg hy]

/-- The power of a non-finite base with a non-zero exponent is not finite. -/
theorem cPow_nonFinite {y : ℝ} (hy : y ≠ 0) : cPow Real.rpow nonFinite (fin y) = nonFinite := by
  unfold cPow
  have h1 : ¬ ((fin y : Dbl ℝ) = fin 0 ∨ (nonFinite : Dbl ℝ) = fin 1) := by
    rintro (h | h)
    · cases h; exact hy rfl
    · cases h
  rw [if_neg h1]

theorem norm_map_fin (h : TransMatrix ℝ) :
    norm (cSqrt Real.sqrt) (h.map fin)
      = fin (Real.sqrt (h 0 0 * h 0 0 + h 1 0 * h 1 0 + h 2 0 * h 2 0)) := by
  have hnn : 0 ≤ h 0 0 * h 0 0 + h 1 0 * h 1 0 + h 2 0 * h 2 0 := by
    nlinarith [mul_self_nonneg (h 0 0), mul_self_nonneg (h 1 0), mul_self_nonneg (h 2 0)]
  simp only [norm, Matrix.map_apply, Dbl.fin_mul, Dbl.fin_add, cSqrt, if_pos hnn]

theorem shrinkAlpha_eq {mu p : ℝ} (hmu : 0 < mu) (hp1 : p ≤ 1) :
    shrinkAlpha (cPow Real.rpow) (fin mu) (fin p)
      = fin (((2 / mu) * (1 - p)) ^ (1 / (2 - p))) := by
  have h2p : (2 - p) ≠ 0 := by linarith
  have hbase : 0 ≤ (2 / mu) * (1 - p) := mul_nonneg (by positivity) (by linarith)
  have hexp : 0 ≤ 1 / (2 - p) := by
    apply div_nonneg zero_le_one; linarith
  simp only [shrinkAlpha, Dbl.two_eq, Dbl.one_eq, Dbl.fin_sub, Dbl.fin_div_of_ne _ hmu.ne',
    Dbl.fin_div_of_ne _ h2p, Dbl.fin_mul]
  exact cPow_of_nonneg hbase (Or.inr hexp)

theorem shrinkThreshold_eq {mu p : ℝ} (hmu : 0 < mu) (hp1 : p ≤ 1) :
    shrinkThreshold (cPow Real.rpow) (fin mu) (fin p)
      = fin (((2 / mu) * (1 - p)) ^ (1 / (2 - p))
          + (p / mu) * (((2 / mu) * (1 - p)) ^ (1 / (2 - p))) ^ (p - 1)) := by
  have hbase : 0 ≤ (2 / mu) * (1 - p) := mul_nonneg (by positivity) (by linarith)
  have halpha : 0 ≤ ((2 / mu) * (1 - p)) ^ (1 / (2 - p)) := Real.rpow_nonneg hbase _
  have hcase : 0 < ((2 / mu) * (1 - p)) ^ (1 / (2 - p)) ∨ 0 ≤ p - 1 := by
    rcases lt_or_eq_of_le hp1 with h | h
    · left
      apply Real.rpow_pos_of_pos
      exact mul_pos (by positivity) (by linarith)
    · right; linarith
  simp only [shrinkThreshold, shrinkAlpha_eq hmu hp1, Dbl.one_eq, Dbl.fin_sub,
    Dbl.fin_div_of_ne _ hmu.ne', cPow_of_nonneg halpha hcase, Dbl.fin_mul, Dbl.fin_add]

/-- Below the threshold `shrink` takes the early return, and on a finite
vector the value `0*h` is the zero vector. -/
theorem shrink_of_le (pow : Dbl ℝ → Dbl ℝ → Dbl ℝ) (sqrt : Dbl ℝ → Dbl ℝ) (mu p : Dbl ℝ)
    (nbIterShrink : Int) (h : TransMatrix ℝ)
    (hle : norm sqrt (h.map fin) ≤ shrinkThreshold pow mu p) :
    shrink pow sqrt mu p nbIterShrink (h.map fin) = 0 := by
  unfold shrink
  simp only [if_pos hle]
  ext i j
  simp [Matrix.smul_apply]

theorem zero_map_fin : (0 : TransMatrix (Dbl ℝ)) = (0 : TransMatrix ℝ).map fin := by
  ext i j
  simp

theorem norm_zero_dbl : norm (cSqrt Real.sqrt) (0 : TransMatrix (Dbl ℝ)) = fin 0 := by
  rw [zero_map_fin, norm_map_fin]
  simp

/-- For `mu > 0` and `p` in `(0,2)` the threshold of `shrink` is never a
negative number: it is non-negative or not finite. -/
theorem shrinkThreshold_nonneg {mu p t : ℝ} (hmu : 0 < mu) (hp0 : 0 < p) (hp2 : p < 2)
    (ht : shrinkThreshold (cPow Real.rpow) (fin mu) (fin p) = fin t) : 0 ≤ t := by
  rcases le_or_lt p 1 with hp1 | hp1
  · rw [shrinkThreshold_eq hmu hp1] at ht
    cases ht
    have hbase : 0 ≤ (2 / mu) * (1 - p) := mul_nonneg (by positivity) (by linarith)
    have halpha : 0 ≤ ((2 / mu) * (1 - p)) ^ (1 / (2 - p)) := Real.rpow_nonneg hbase _
    have := Real.rpow_nonneg halpha (p - 1)
    positivity
  · unfold shrinkThreshold at ht
    cases hal : shrinkAlpha (cPow Real.rpow) (fin mu) (fin p) with
    | nonFinite => rw [hal] at ht; simp at ht
    | fin al =>
      rw [hal] at ht
      simp only [Dbl.one_eq, Dbl.fin_sub, Dbl.fin_div_of_ne _ hmu.ne'] at ht
      rcases lt_or_le al 0 with hneg | hnn
      · have hfr : Int.fract (p - 1) ≠ 0 := by
          rw [Int.fract_eq_self.mpr ⟨by linarith, by linarith⟩]
          linarith
        rw [cPow_of_neg hneg hfr] at ht
        simp at ht
      · rw [cPow_of_nonneg hnn (Or.inr (by linarith))] at ht
        simp only [Dbl.fin_mul, Dbl.fin_add] at ht
        cases ht
        have := Real.rpow_nonneg hnn (p - 1)
        positivity

/-- For `mu > 0` and `0 < p <= 1` the threshold of `shrink` is a number. -/
theorem shrinkThreshold_finite {mu p : ℝ} (hmu : 0 < mu) (hp1 : p ≤ 1) :
    shrinkThreshold (cPow Real.rpow) (fin mu) (fin p) ≠ nonFinite := by
  rw [shrinkThreshold_eq hmu hp1]
  exact fun h => by cases h

theorem fract_five_quarters : Int.fract (1 / (2 - 6 / 5) : ℝ) ≠ 0 := by
  have h : (1 / (2 - 6 / 5) : ℝ) = 5 / 4 := by norm_num
  have h2 : Int.fract (5 / 4 : ℝ) = 1 / 4 := by
    rw [Int.fract_eq_iff]
    refine ⟨by norm_num, by norm_num, 1, by norm_num⟩
  rw [h, h2]
  norm_num

theorem shrinkAlpha_six_fifths :
    shrinkAlpha (cPow Real.rpow) (fin 1) (fin (6 / 5)) = nonFinite := by
  have h1 : (1 : ℝ) ≠ 0 := one_ne_zero
  have h2 : (2 - 6 / 5 : ℝ) ≠ 0 := by norm_num
  simp only [shrinkAlpha, Dbl.two_eq, Dbl.one_eq, Dbl.fin_sub, Dbl.fin_div_of_ne _ h1,
    Dbl.fin_div_of_ne _ h2, Dbl.fin_mul]
  exact cPow_of_neg (by norm_num) fract_five_quarters

theorem shrinkIter_nonFinite (mu hNorm : Dbl ℝ) {p : ℝ} (hp : p - 1 ≠ 0) (k : Nat) :
    (shrinkIter (cPow Real.rpow) mu (fin p) hNorm)^[k] nonFinite = nonFinite := by
  induction k with
  | zero => rfl
  | succ k ih =>
    rw [Function.iterate_succ_apply', ih]
    simp only [shrinkIter, Dbl.one_eq, Dbl.fin_sub, cPow_nonFinite hp, Dbl.mul_nonFinite,
      Dbl.sub_nonFinite]

/-- Bernoulli for an exponent in `[-1, 0]`. -/
theorem rpow_neg_ge_tangent {s q : ℝ} (hs : 0 < s) (hq0 : 0 ≤ q) (hq1 : q ≤ 1) :
    1 + q - q * s ≤ s ^ (-q) := by
  have hL : s ^ q ≤ 1 + q * (s - 1) := by
    have := rpow_one_add_le_one_add_mul_self (s := s - 1) (by linarith) hq0 hq1
    simpa using this
  have hsq : 0 < s ^ q := Real.rpow_pos_of_pos hs q
  rw [Real.rpow_neg hs.le]
  have hLpos : 0 < 1 + q * (s - 1) := lt_of_lt_of_le hsq hL
  have h1 : (1 + q * (s - 1))⁻¹ ≤ (s ^ q)⁻¹ := inv_anti₀ hsq hL
  have h2 : 1 + q - q * s ≤ (1 + q * (s - 1))⁻¹ := by
    rw [inv_eq_one_div, le_div_iff₀ hLpos]
    nlinarith [sq_nonneg (q * (s - 1))]
  exact le_trans h2 h1

/-- The inequality behind the threshold of `shrink`: for `0 < p <= 1` and
every `r >= 0`, `mu*r*hTilde <= r^p + (mu/2)*r^2`. -/
theorem shrink_key {mu p : ℝ} (hmu : 0 < mu) (hp0 : 0 < p) (hp1 : p ≤ 1) {r : ℝ} (hr : 0 ≤ r) :
    mu * r * (((2 / mu) * (1 - p)) ^ (1 / (2 - p))
          + (p / mu) * (((2 / mu) * (1 - p)) ^ (1 / (2 - p))) ^ (p - 1))
      ≤ r ^ p + mu / 2 * (r * r) := by
  rcases hr.eq_or_lt with hr0 | hrpos
  · subst hr0
    simp [Real.zero_rpow hp0.ne']
  rcases hp1.eq_or_lt with hpe | hplt
  · subst hpe
    norm_num
    have : mu * r * mu⁻¹ = r := by field_simp
    rw [this]
    nlinarith [mul_pos hmu (mul_pos hrpos hrpos)]
  · set al := ((2 / mu) * (1 - p)) ^ (1 / (2 - p)) with hal
    have hbase : 0 < (2 / mu) * (1 - p) := mul_pos (by positivity) (by linarith)
    have halpos : 0 < al := Real.rpow_pos_of_pos hbase _
    set A := al ^ (p - 1) with hA
    have hApos : 0 < A := Real.rpow_pos_of_pos halpos _
    have h2p : (2 - p) ≠ 0 := by linarith
    have hal2 : al ^ (2 - p) = (2 / mu) * (1 - p) := by
      rw [hal, ← Real.rpow_mul hbase.le, one_div, inv_mul_cancel₀ h2p, Real.rpow_one]
    have hsplit : al = al ^ (2 - p) * A := by
      rw [hA, ← Real.rpow_add halpos]
      have : (2 - p) + (p - 1) = 1 := by ring
      rw [this, Real.rpow_one]
    have hmuA : mu * al = 2 * (1 - p) * A := by
      rw [hsplit, hal2]
      field_simp
    have hs : 0 < r / al := div_pos hrpos halpos
    have htan := rpow_neg_ge_tangent hs (by linarith : (0:ℝ) ≤ 1 - p) (by linarith)
    have hrp : r ^ p = r * (A * (r / al) ^ (-(1 - p))) := by
      have h1 : r = al * (r / al) := by field_simp
      have h2 : r ^ (p - 1) = A * (r / al) ^ (-(1 - p)) := by
        conv_lhs => rw [h1]
        rw [Real.mul_rpow halpos.le hs.le, hA]
        congr 2
        ring
      rw [← h2, Real.rpow_sub_one hrpos.ne']
      field_simp
    rw [hrp]
    have hmul : r * (A * (1 + (1 - p) - (1 - p) * (r / al)))
        ≤ r * (A * (r / al) ^ (-(1 - p))) :=
      mul_le_mul_of_nonneg_left (mul_le_mul_of_nonneg_left htan hApos.le) hrpos.le
    have hq : (1 - p) * A / al = mu / 2 := by
      field_simp
      linarith
    have e : mu * r * (al + p / mu * A) + mu / 2 * (r * r) -  mu / 2 * (r * r)
        = r * (A * (1 + (1 - p) - (1 - p) * (r / al))) + mu / 2 * (r * r) := by
      have : r * (A * (1 + (1 - p) - (1 - p) * (r / al)))
          = (2 - p) * A * r - ((1 - p) * A / al) * (r * r) := by
        field_simp
        ring
      rw [this, hq]
      have : mu * r * (al + p / mu * A) = r * (mu * al) + r * p * A := by
        field_simp
        ring
      rw [this, hmuA]
      ring
    linarith

/-- The Cauchy-Schwarz inequality for 3-vectors. -/
theorem dot_le_sqrt_mul_sqrt (z0 z1 z2 h0 h1 h2 : ℝ) :
    z0 * h0 + z1 * h1 + z2 * h2
      ≤ Real.sqrt (z0 * z0 + z1 * z1 + z2 * z2) * Real.sqrt (h0 * h0 + h1 * h1 + h2 * h2) := by
  rw [← Real.sqrt_mul
    (add_nonneg (add_nonneg (mul_self_nonneg z0) (mul_self_nonneg z1)) (mul_self_nonneg z2))]
  apply Real.le_sqrt_of_sq_le
  nlinarith [sq_nonneg (z0 * h1 - z1 * h0), sq_nonneg (z0 * h2 - z2 * h0),
    sq_nonneg (z1 * h2 - z2 * h1)]

end ShrinkLemmas

/-! ### The loops of `performSparceICP` -/

section LoopLemmas

theorem movePointCloud_compose {K : Type} [Semiring K] {n : Nat} (X : PointCloud K n)
    (T1 T2 : RigidTransfo K) :
    movePointCloud (movePointCloud X T1) T2 = movePointCloud X (compose T2 T1) := by
  unfold movePointCloud compose
  simp only [Matrix.transpose_transpose]
  rw [replicateCols_mul_add, Matrix.mul_add, Matrix.mul_assoc, add_assoc]

theorem movePointCloud_one {K : Type} [Semiring K] {n : Nat} (X : PointCloud K n) :
    movePointCloud X ((1, 0) : RigidTransfo K) = X := by
  ext i j
  simp [movePointCloud, replicateCols]

theorem compose_one {K : Type} [Semiring K] (T : RigidTransfo K) :
    compose ((1, 0) : RigidTransfo K) T = T := by
  simp [compose]

variable {S : Type} [AddCommMonoid S] [Mul S] [Sub S] [Div S] [One S] [NatCast S]
  [LE S] [DecidableRel (fun a b : S => a ≤ b)]

/-- A property of the loop state that every pass of the inner loop keeps
holds in every state that the loops reach. -/
theorem loops_invariant (lib : Libs S) {n1 n2 : Nat} (o : IcpOptimizer S n1 n2)
    (P : LoopState S n1 → Prop)
    (hstep : ∀ matchPC st, P st → P (innerIteration lib o matchPC st))
    (init : LoopState S n1) (h0 : P init) (k j : Nat) :
    P ((outerIteration lib o)^[k] init) ∧
      P ((innerIteration lib o (computeCorrespondances lib o.secondCloud
        ((outerIteration lib o)^[k] init).movingPC))^[j] ((outerIteration lib o)^[k] init)) := by
  have inner : ∀ (matchPC : PointCloud S n1) (j : Nat) (st : LoopState S n1),
      P st → P ((innerIteration lib o matchPC)^[j] st) := by
    intro matchPC j
    induction j with
    | zero => intro st h; exact h
    | succ j ih =>
      intro st h
      rw [Function.iterate_succ_apply]
      exact ih _ (hstep _ _ h)
  have outer : ∀ (k : Nat) (st : LoopState S n1), P st → P ((outerIteration lib o)^[k] st) := by
    intro k
    induction k with
    | zero => intro st h; exact h
    | succ k ih =>
      intro st h
      rw [Function.iterate_succ_apply]
      exact ih _ (inner _ _ _ h)
  exact ⟨outer k init h0, inner _ _ _ (outer k init h0)⟩

theorem runLoops_invariant (lib : Libs S) {n1 n2 : Nat} (o : IcpOptimizer S n1 n2)
    (P : LoopState S n1 → Prop)
    (hstep : ∀ matchPC st, P st → P (innerIteration lib o matchPC st))
    (h0 : P ⟨o.firstCloud, o.firstNormals, o.computedTransfo, o.lambda⟩) :
    P (runLoops lib o) :=
  (loops_invariant lib o P hstep _ h0 o.nbIterations.toNat 0).1

/-- With no outer pass or no inner pass the loops leave the state as set up
on entry. -/
theorem runLoops_of_zero (lib : Libs S) {n1 n2 : Nat} (o : IcpOptimizer S n1 n2)
    (h : o.nbIterations = 0 ∨ o.nbIterationsIn = 0) :
    runLoops lib o = ⟨o.firstCloud, o.firstNormals, o.computedTransfo, o.lambda⟩ := by
  unfold runLoops
  rcases h with h | h
  · rw [h]; rfl
  · apply Function.iterate_fixed
    unfold outerIteration
    rw [h]; rfl

/-- The centroid of a moved cloud is the moved centroid (non-empty cloud). -/
theorem centerOf_movePointCloud {K : Type} [LinearOrderedField K] {n : Nat} (hn : 0 < n)
    (a : PointCloud K n) (T : RigidTransfo K) :
    centerOf (movePointCloud a T) = (T.1 * (centerOf a).transpose + T.2).transpose := by
  have hnK : (n : K) ≠ 0 := Nat.cast_ne_zero.mpr hn.ne'
  ext i j
  have hi : i = 0 := Subsingleton.elim _ _
  subst hi
  simp only [centerOf, movePointCloud, replicateCols, Matrix.transpose_apply, Matrix.add_apply,
    Matrix.mul_apply, Finset.sum_add_distrib, Finset.sum_const, Finset.card_univ,
    Fintype.card_fin, nsmul_eq_mul]
  rw [Finset.sum_comm]
  simp only [← Finset.mul_sum, mul_div_assoc, add_div]
  rw [Finset.sum_div]
  simp only [mul_div_assoc]
  congr 1
  field_simp

/-- The exhaustive search returns the index of a nearest row of a cloud
that has rows. -/
theorem nearestIndex_spec {K : Type} [LinearOrderedField K] {m : Nat} (hm : 0 < m)
    (refCloud : PointCloud K m) (query : Fin 3 → K) :
    nearestIndex refCloud query < m ∧
      ∀ j : Fin m, sqDist (rowAt refCloud (nearestIndex refCloud query)) query
        ≤ sqDist (refCloud j) query := by
  unfold nearestIndex
  cases h : List.argmin (fun j : Fin m => sqDist (refCloud j) query) (List.finRange m) with
  | none =>
    exfalso
    have hnil := List.argmin_eq_none.mp h
    have hmem := List.mem_finRange (⟨0, hm⟩ : Fin m)
    rw [hnil] at hmem
    exact List.not_mem_nil _ hmem
  | some b =>
    refine ⟨b.isLt, fun j => ?_⟩
    have hle := List.le_of_mem_argmin (f := fun j : Fin m => sqDist (refCloud j) query)
      (List.mem_finRange j) (Option.mem_def.mpr h)
    simpa only [rowAt, b.isLt, dif_pos, Fin.eta] using hle

end LoopLemmas

/-! ### The shrink operator above the threshold -/

section ShrinkAbove

theorem Dbl.fin_lt_fin {K : Type} [LinearOrderedField K] (x y : K) :
    (fin x : Dbl K) < fin y ↔ x < y := Iff.rfl

theorem Dbl.fin_smul_map (b : ℝ) (h : TransMatrix ℝ) :
    (fin b : Dbl ℝ) • h.map fin = (b • h).map fin := by
  ext i j
  simp [Matrix.smul_apply]

theorem norm_real (h : TransMatrix ℝ) :
    norm Real.sqrt h = Real.sqrt (h 0 0 * h 0 0 + h 1 0 * h 1 0 + h 2 0 * h 2 0) := rfl

theorem norm_real_nonneg (h : TransMatrix ℝ) : 0 ≤ norm Real.sqrt h := Real.sqrt_nonneg _

theorem norm_real_mul_self (h : TransMatrix ℝ) :
    norm Real.sqrt h * norm Real.sqrt h = h 0 0 * h 0 0 + h 1 0 * h 1 0 + h 2 0 * h 2 0 :=
  Real.mul_self_sqrt
    (add_nonneg (add_nonneg (mul_self_nonneg _) (mul_self_nonneg _)) (mul_self_nonneg _))

theorem norm_real_smul {b : ℝ} (hb : 0 ≤ b) (h : TransMatrix ℝ) :
    norm Real.sqrt (b • h) = b * norm Real.sqrt h := by
  rw [norm_real, norm_real]
  simp only [Matrix.smul_apply, smul_eq_mul]
  rw [show b * h 0 0 * (b * h 0 0) + b * h 1 0 * (b * h 1 0) + b * h 2 0 * (b * h 2 0)
    = (b * b) * (h 0 0 * h 0 0 + h 1 0 * h 1 0 + h 2 0 * h 2 0) by ring,
    Real.sqrt_mul (mul_self_nonneg b), Real.sqrt_mul_self hb]

theorem norm_map_fin_eq (h : TransMatrix ℝ) :
    norm (cSqrt Real.sqrt) (h.map fin) = fin (norm Real.sqrt h) := norm_map_fin h

/-- Above the threshold, with `alpha` a number and a positive norm, `shrink`
returns `beta*h` for the value of `beta` after the loop. -/
theorem shrink_of_gt {mu p al : ℝ} (nbIterShrink : Int) (h : TransMatrix ℝ)
    (hal : shrinkAlpha (cPow Real.rpow) (fin mu) (fin p) = fin al)
    (hpos : 0 < norm Real.sqrt h)
    (hgt : ¬ norm (cSqrt Real.sqrt) (h.map fin)
      ≤ shrinkThreshold (cPow Real.rpow) (fin mu) (fin p))
    {b : ℝ}
    (hb : (shrinkIter (cPow Real.rpow) (fin mu) (fin p) (fin (norm Real.sqrt h)))^[
        nbIterShrink.toNat] (fin ((al / norm Real.sqrt h + 1) / 2)) = fin b) :
    shrink (cPow Real.rpow) (cSqrt Real.sqrt) (fin mu) (fin p) nbIterShrink (h.map fin)
      = (b • h).map fin := by
  unfold shrink
  have h2 : (2 : ℝ) ≠ 0 := two_ne_zero
  rw [norm_map_fin_eq] at hgt
  simp only [if_neg hgt, hal, norm_map_fin_eq, Dbl.fin_div_of_ne _ hpos.ne', Dbl.one_eq,
    Dbl.two_eq, Dbl.fin_add, Dbl.fin_div_of_ne _ h2, hb, Dbl.fin_smul_map]

/-- The threshold of `shrink` for `p = 1` is `1/mu`. -/
theorem shrinkThreshold_one {mu : ℝ} (hmu : 0 < mu) :
    shrinkThreshold (cPow Real.rpow) (fin mu) (fin 1) = fin (1 / mu) := by
  rw [shrinkThreshold_eq hmu le_rfl]
  norm_num

theorem shrinkAlpha_one {mu : ℝ} (hmu : 0 < mu) :
    shrinkAlpha (cPow Real.rpow) (fin mu) (fin 1) = fin 0 := by
  rw [shrinkAlpha_eq hmu le_rfl]
  norm_num

/-- For `p = 1` one pass of the loop of `shrink` gives `1 - 1/(mu*hNorm)`
whatever the previous `beta`. -/
theorem shrinkIter_one {mu H : ℝ} (hmu : 0 < mu) (hH : 0 < H) (beta : Dbl ℝ) :
    shrinkIter (cPow Real.rpow) (fin mu) (fin 1) (fin H) beta = fin (1 - 1 / (mu * H)) := by
  have hpow1 : cPow Real.rpow beta (fin 0) = fin 1 := by
    unfold cPow
    rw [if_pos (Or.inl rfl)]
  have hpow2 : cPow Real.rpow (fin H) (fin (1 - 2)) = fin (H ^ ((1 : ℝ) - 2)) :=
    cPow_of_nonneg hH.le (Or.inl hH)
  simp only [shrinkIter, Dbl.one_eq, Dbl.two_eq, Dbl.fin_sub, sub_self, hpow1, hpow2,
    Dbl.fin_div_of_ne _ hmu.ne', Dbl.fin_mul]
  congr 2
  rw [show ((1 : ℝ) - 2) = -1 by norm_num, Real.rpow_neg_one]
  field_simp

theorem shrinkIter_one_iterate {mu H : ℝ} (hmu : 0 < mu) (hH : 0 < H) (beta : Dbl ℝ)
    {k : Nat} (hk : 0 < k) :
    (shrinkIter (cPow Real.rpow) (fin mu) (fin 1) (fin H))^[k] beta
      = fin (1 - 1 / (mu * H)) := by
  obtain ⟨k, rfl⟩ := Nat.exists_eq_succ_of_ne_zero hk.ne'
  rw [Function.iterate_succ_apply', shrinkIter_one hmu hH]

/-- Below the threshold the zero vector minimises the objective of
`shrink` (`0 < p <= 1`). -/
theorem shrinkObjective_zero_le {mu p : ℝ} (hmu : 0 < mu) (hp0 : 0 < p) (hp1 : p ≤ 1)
    (h z : TransMatrix ℝ)
    (hle : norm Real.sqrt h ≤ ((2 / mu) * (1 - p)) ^ (1 / (2 - p))
          + (p / mu) * (((2 / mu) * (1 - p)) ^ (1 / (2 - p))) ^ (p - 1)) :
    shrinkObjective Real.rpow Real.sqrt mu p h 0
      ≤ shrinkObjective Real.rpow Real.sqrt mu p h z := by
  have hr : 0 ≤ norm Real.sqrt z := norm_real_nonneg z
  have hkey := shrink_key hmu hp0 hp1 hr
  have hcs := dot_le_sqrt_mul_sqrt (z 0 0) (z 1 0) (z 2 0) (h 0 0) (h 1 0) (h 2 0)
  have hrr := norm_real_mul_self z
  have hmono := mul_le_mul_of_nonneg_left hle (mul_nonneg hmu.le hr)
  have hcs2 := mul_le_mul_of_nonneg_left hcs hmu.le
  rw [hrr] at hkey
  simp only [shrinkObjective, Real.rpow_eq_pow, norm_real_mul_self]
  simp only [norm_real, Matrix.sub_apply, Matrix.zero_apply] at *
  simp only [mul_zero, add_zero, Real.sqrt_zero, Real.zero_rpow hp0.ne', zero_add, zero_sub]
  nlinarith [hkey, hmono, hcs2]

/-- Above the threshold `1/mu`, the vector `(1 - 1/(mu*||h||))*h` minimises
`||z|| + (mu/2)*||z - h||^2`. -/
theorem shrinkObjective_soft_le {mu : ℝ} (hmu : 0 < mu) (h z : TransMatrix ℝ)
    (hgt : 1 / mu < norm Real.sqrt h) :
    shrinkObjective Real.rpow Real.sqrt mu 1 h ((1 - 1 / (mu * norm Real.sqrt h)) • h)
      ≤ shrinkObjective Real.rpow Real.sqrt mu 1 h z := by
  have hH : 0 < norm Real.sqrt h := lt_trans (by positivity) hgt
  have hmuH : 1 < mu * norm Real.sqrt h := by
    have := mul_lt_mul_of_pos_left hgt hmu
    rwa [mul_one_div_cancel hmu.ne'] at this
  have hc0 : 0 < 1 / (mu * norm Real.sqrt h) := by positivity
  have hc1 : 1 / (mu * norm Real.sqrt h) < 1 := by
    rw [div_lt_one (by positivity)]; exact hmuH
  have hb : 0 ≤ 1 - 1 / (mu * norm Real.sqrt h) := by linarith
  have hcH : mu * norm Real.sqrt h * (1 / (mu * norm Real.sqrt h)) = 1 := by
    field_simp
  have hcs := dot_le_sqrt_mul_sqrt (z 0 0) (z 1 0) (z 2 0) (h 0 0) (h 1 0) (h 2 0)
  have hHH := norm_real_mul_self h
  simp only [shrinkObjective, Real.rpow_eq_pow, Real.rpow_one, norm_real_mul_self,
    norm_real_smul hb]
  simp only [Matrix.sub_apply, Matrix.smul_apply, smul_eq_mul]
  rw [← norm_real z, ← norm_real h] at hcs
  generalize norm Real.sqrt h = H at *
  generalize 1 / (mu * H) = c at *
  generalize norm Real.sqrt z = R at *
  have hR : (z 0 0 * h 0 0 + z 1 0 * h 1 0 + z 2 0 * h 2 0) * (mu * c) ≤ R := by
    have := mul_le_mul_of_nonneg_right hcs (mul_nonneg hmu.le hc0.le)
    calc (z 0 0 * h 0 0 + z 1 0 * h 1 0 + z 2 0 * h 2 0) * (mu * c)
        ≤ R * H * (mu * c) := this
      _ = R * (mu * H * c) := by ring
      _ = R := by rw [hcH, mul_one]
  have e1 : mu * c * (h 0 0 * h 0 0 + h 1 0 * h 1 0 + h 2 0 * h 2 0) = H := by
    rw [← hHH]
    calc mu * c * (H * H) = (mu * H * c) * H := by ring
      _ = H := by rw [hcH, one_mul]
  have e2 : mu * c * c * (h 0 0 * h 0 0 + h 1 0 * h 1 0 + h 2 0 * h 2 0) = c * H := by
    calc mu * c * c * (h 0 0 * h 0 0 + h 1 0 * h 1 0 + h 2 0 * h 2 0)
        = c * (mu * c * (h 0 0 * h 0 0 + h 1 0 * h 1 0 + h 2 0 * h 2 0)) := by ring
      _ = c * H := by rw [e1]
  nlinarith [mul_nonneg hmu.le (sq_nonneg (z 0 0 - (1 - c) * h 0 0)),
    mul_nonneg hmu.le (sq_nonneg (z 1 0 - (1 - c) * h 1 0)),
    mul_nonneg hmu.le (sq_nonneg (z 2 0 - (1 - c) * h 2 0)), hR, e1, e2]

end ShrinkAbove

/-! ### Normal estimation -/

section NormalLemmas

theorem estimateNormals_apply {S : Type} [AddCommMonoid S] [Mul S] [Sub S] [Div S] [One S]
    [NatCast S] [LT S] [DecidableRel (fun a b : S => a < b)]
    (lib : Libs S) {n : Nat} (pointCloud : PointCloud S n) (k : Nat) (i : Fin n) :
    estimateNormals lib pointCloud k i =
      match (lowestEigenvalue lib.dblMax
        (lib.eigenSolver (neighbourCovariance lib pointCloud k i)).eigenvaluesRe).1 with
      | none => 0
      | some bestIndice =>
        fun r => (lib.eigenSolver (neighbourCovariance lib pointCloud k i)).eigenvectorsRe r
            bestIndice /
          lib.sqrt (∑ r : Fin 3,
            ((lib.eigenSolver (neighbourCovariance lib pointCloud k i)).eigenvectorsRe r
                bestIndice *
              (lib.eigenSolver (neighbourCovariance lib pointCloud k i)).eigenvectorsRe r
                bestIndice +
             (lib.eigenSolver (neighbourCovariance lib pointCloud k i)).eigenvectorsIm r
                bestIndice *
              (lib.eigenSolver (neighbourCovariance lib pointCloud k i)).eigenvectorsIm r
                bestIndice)) := rfl

/-- The search for the lowest eigenvalue finds an index whose eigenvalue is
least, as soon as one eigenvalue lies below `DBL_MAX`. -/
theorem lowestEigenvalue_spec (dblMax : ℝ) (ev : Fin 3 → ℝ) (h : ∃ j, ev j < dblMax) :
    ∃ b, (lowestEigenvalue dblMax ev).1 = some b ∧ ∀ j, ev b ≤ ev j := by
  have hr : List.finRange 3 = [0, 1, 2] := by decide
  have hall : ∀ j : Fin 3, j = 0 ∨ j = 1 ∨ j = 2 := by decide
  have hfold : lowestEigenvalue dblMax ev =
      if ev 2 < (if ev 1 < (if ev 0 < dblMax then (some (0 : Fin 3), ev 0)
            else (none, dblMax)).2 then (some (1 : Fin 3), ev 1)
          else (if ev 0 < dblMax then (some (0 : Fin 3), ev 0) else (none, dblMax))).2
      then (some (2 : Fin 3), ev 2)
      else (if ev 1 < (if ev 0 < dblMax then (some (0 : Fin 3), ev 0)
            else (none, dblMax)).2 then (some (1 : Fin 3), ev 1)
          else (if ev 0 < dblMax then (some (0 : Fin 3), ev 0) else (none, dblMax))) := by
    simp only [lowestEigenvalue, hr, List.foldl]
    rfl
  obtain ⟨j0, hj0⟩ := h
  rw [hfold]
  by_cases h0 : ev 0 < dblMax
  · by_cases h1 : ev 1 < ev 0
    · by_cases h2 : ev 2 < ev 1
      · refine ⟨2, by simp only [h0, h1, h2, if_true], fun j => ?_⟩
        rcases hall j with rfl | rfl | rfl <;> linarith
      · refine ⟨1, by simp only [h0, h1, h2, if_true, if_false], fun j => ?_⟩
        rcases hall j with rfl | rfl | rfl <;> linarith
    · by_cases h2 : ev 2 < ev 0
      · refine ⟨2, by simp only [h0, h1, h2, if_true, if_false], fun j => ?_⟩
        rcases hall j with rfl | rfl | rfl <;> linarith
      · refine ⟨0, by simp only [h0, h1, h2, if_true, if_false], fun j => ?_⟩
        rcases hall j with rfl | rfl | rfl <;> linarith
  · by_cases h1 : ev 1 < dblMax
    · by_cases h2 : ev 2 < ev 1
      · refine ⟨2, by simp only [h0, h1, h2, if_true, if_false], fun j => ?_⟩
        rcases hall j with rfl | rfl | rfl <;> linarith
      · refine ⟨1, by simp only [h0, h1, h2, if_true, if_false], fun j => ?_⟩
        rcases hall j with rfl | rfl | rfl <;> linarith
    · by_cases h2 : ev 2 < dblMax
      · refine ⟨2, by simp only [h0, h1, h2, if_true, if_false], fun j => ?_⟩
        rcases hall j with rfl | rfl | rfl <;> linarith
      · exfalso
        rcases hall j0 with rfl | rfl | rfl <;> contradiction

/-- For a Gram matrix `M^T * M`, `v . (M^T M v) = (M v) . (M v)`. -/
theorem gram_quadratic {k : Nat} (M : Matrix (Fin k) (Fin 3) ℝ) (v : Fin 3 → ℝ) :
    Matrix.dotProduct v ((M.transpose * M).mulVec v)
      = Matrix.dotProduct (M.mulVec v) (M.mulVec v) := by
  rw [← Matrix.mulVec_mulVec, Matrix.dotProduct_mulVec, Matrix.vecMul_transpose]

/-- An eigenvalue of a Gram matrix `M^T * M` with a non-zero real eigenvector
is non-negative. -/
theorem gram_eigenvalue_nonneg {k : Nat} (M : Matrix (Fin k) (Fin 3) ℝ) (v : Fin 3 → ℝ)
    (ev : ℝ) (hv : v ≠ 0) (h : (M.transpose * M).mulVec v = ev • v) : 0 ≤ ev := by
  have hq := gram_quadratic M v
  rw [h, Matrix.dotProduct_smul, smul_eq_mul] at hq
  have hvv : 0 < Matrix.dotProduct v v := by
    rcases lt_or_eq_of_le (Matrix.dotProduct_self_star_nonneg (v := v)) with h1 | h1
    · simpa using h1
    · exact absurd (Matrix.dotProduct_self_eq_zero.mp (by simpa using h1.symm)) hv
  have hMM : 0 ≤ Matrix.dotProduct (M.mulVec v) (M.mulVec v) := by
    simpa using Matrix.dotProduct_self_star_nonneg (v := M.mulVec v)
  by_contra hneg
  push_neg at hneg
  nlinarith

/-- For points of the plane `z = 0` that are not on a line, centred at a
point `b` of that plane, the kernel of the Gram matrix of the centred points
is the third axis. -/
theorem planar_gram_kernel {k : Nat} (P : Fin k → Fin 3 → ℝ) (b : Fin 3 → ℝ)
    (M : Matrix (Fin k) (Fin 3) ℝ) (hM : ∀ j r, M j r = P j r - b r)
    (hP : ∀ j, P j 2 = 0) (hb : b 2 = 0) (hncol : ¬ Collinear ℝ (Set.range P))
    (v : Fin 3 → ℝ) (hv : (M.transpose * M).mulVec v = 0) :
    v 0 = 0 ∧ v 1 = 0 := by
  have hq := gram_quadratic M v
  rw [hv, Matrix.dotProduct_zero] at hq
  have hMv := Matrix.dotProduct_self_eq_zero.mp hq.symm
  have hj : ∀ j, (P j 0 - b 0) * v 0 + (P j 1 - b 1) * v 1 = 0 := by
    intro j
    have := congrFun hMv j
    simp only [Matrix.mulVec, Matrix.dotProduct, Fin.sum_univ_three, hM,
      Pi.zero_apply, hP j, hb, sub_self, zero_mul, add_zero] at this
    exact this
  by_contra hne
  have hd : v 0 * v 0 + v 1 * v 1 ≠ 0 := by
    intro h0
    apply hne
    constructor <;> nlinarith [mul_self_nonneg (v 0), mul_self_nonneg (v 1)]
  apply hncol
  rw [collinear_iff_exists_forall_eq_smul_vadd]
  refine ⟨b, ![-v 1, v 0, 0], ?_⟩
  rintro _ ⟨j, rfl⟩
  refine ⟨(-v 1 * (P j 0 - b 0) + v 0 * (P j 1 - b 1)) / (v 0 * v 0 + v 1 * v 1), ?_⟩
  have hall : ∀ r : Fin 3, r = 0 ∨ r = 1 ∨ r = 2 := by decide
  ext r
  rcases hall r with rfl | rfl | rfl
  · simp only [vadd_eq_add, Pi.add_apply, Pi.smul_apply, smul_eq_mul, Matrix.cons_val_zero]
    rw [div_mul_eq_mul_div, ← sub_eq_iff_eq_add, eq_div_iff hd]
    linear_combination (v 0) * hj j
  · simp only [vadd_eq_add, Pi.add_apply, Pi.smul_apply, smul_eq_mul, Matrix.cons_val_one,
      Matrix.head_cons]
    rw [div_mul_eq_mul_div, ← sub_eq_iff_eq_add, eq_div_iff hd]
    linear_combination (v 1) * hj j
  · simp [hP j, hb]

/-- The Gram matrix of centred points of the plane `z = 0` has a zero third
row. -/
theorem planar_gram_row {k : Nat} (P : Fin k → Fin 3 → ℝ) (b : Fin 3 → ℝ)
    (M : Matrix (Fin k) (Fin 3) ℝ) (hM : ∀ j r, M j r = P j r - b r)
    (hP : ∀ j, P j 2 = 0) (hb : b 2 = 0) (r : Fin 3) :
    (M.transpose * M) 2 r = 0 := by
  simp [Matrix.mul_apply, hM, hP, hb]

theorem rowAt_planar {n : Nat} (cloud : PointCloud ℝ n) (hplane : ∀ j, cloud j 2 = 0)
    (idx : Nat) : rowAt cloud idx 2 = 0 := by
  unfold rowAt
  split_ifs with h
  · exact hplane _
  · rfl

/-- The normal that `estimateNormals` gives to a point of a cloud in the
plane `z = 0` whose neighbours are not on a line, with an exact
eigen-decomposition and an exact square root. -/
theorem estimateNormals_planar (lib : Libs ℝ) {n : Nat} (cloud : PointCloud ℝ n) (k : Nat)
    (i : Fin n) (hplane : ∀ j, cloud j 2 = 0)
    (hncol : ¬ Collinear ℝ (Set.range (neighbourPoints lib cloud k i)))
    (heig : IsEigenDecomposition (neighbourCovariance lib cloud k i)
      (lib.eigenSolver (neighbourCovariance lib cloud k i)))
    (hsqrt : lib.sqrt = Real.sqrt) (hmax : 0 < lib.dblMax) :
    estimateNormals lib cloud k i = ![0, 0, 1] ∨ estimateNormals lib cloud k i = ![0, 0, -1] := by
  have hP : ∀ j, neighbourPoints lib cloud k i j 2 = 0 := fun j => rowAt_planar cloud hplane _
  have hb : (fun r => (∑ l : Fin k, neighbourPoints lib cloud k i l r) / (k : ℝ)) 2 = 0 := by
    simp [hP]
  have hM : ∀ j r, (Matrix.of (fun j => neighbourPoints lib cloud k i j
        - fun r => (∑ l : Fin k, neighbourPoints lib cloud k i l r) / (k : ℝ)) :
      Matrix (Fin k) (Fin 3) ℝ) j r
      = neighbourPoints lib cloud k i j r
        - (fun r => (∑ l : Fin k, neighbourPoints lib cloud k i l r) / (k : ℝ)) r :=
    fun _ _ => rfl
  have hC : neighbourCovariance lib cloud k i
      = (Matrix.of (fun j => neighbourPoints lib cloud k i j
            - fun r => (∑ l : Fin k, neighbourPoints lib cloud k i l r) / (k : ℝ)) :
          Matrix (Fin k) (Fin 3) ℝ).transpose
        * (Matrix.of (fun j => neighbourPoints lib cloud k i j
            - fun r => (∑ l : Fin k, neighbourPoints lib cloud k i l r) / (k : ℝ)) :
          Matrix (Fin k) (Fin 3) ℝ) := rfl
  generalize (Matrix.of (fun j => neighbourPoints lib cloud k i j
            - fun r => (∑ l : Fin k, neighbourPoints lib cloud k i l r) / (k : ℝ)) :
          Matrix (Fin k) (Fin 3) ℝ) = M at hM hC
  rw [estimateNormals_apply]
  obtain ⟨hIm, hdet, hCV⟩ := heig
  generalize lib.eigenSolver (neighbourCovariance lib cloud k i) = e at *
  -- the columns of `V` are eigenvectors
  have hvec : ∀ c : Fin 3, (neighbourCovariance lib cloud k i).mulVec
      (fun r => e.eigenvectorsRe r c) = e.eigenvaluesRe c • fun r => e.eigenvectorsRe r c := by
    intro c
    ext r
    have := congrFun (congrFun hCV r) c
    rw [Matrix.mul_diagonal] at this
    simp only [Matrix.mulVec, Matrix.dotProduct, Pi.smul_apply, smul_eq_mul]
    rw [mul_comm (e.eigenvaluesRe c)]
    simpa [Matrix.mul_apply] using this
  have hne : ∀ c : Fin 3, (fun r => e.eigenvectorsRe r c) ≠ 0 := by
    intro c h0
    exact hdet (Matrix.det_eq_zero_of_column_eq_zero c (fun r => congrFun h0 r))
  have hnonneg : ∀ c : Fin 3, 0 ≤ e.eigenvaluesRe c := by
    intro c
    have := hvec c
    rw [hC] at this
    exact gram_eigenvalue_nonneg M _ _ (hne c) this
  have hdetC : (neighbourCovariance lib cloud k i).det = 0 := by
    rw [hC]
    exact Matrix.det_eq_zero_of_row_eq_zero 2 (planar_gram_row _ _ M hM hP hb)
  have hprod : ∏ c : Fin 3, e.eigenvaluesRe c = 0 := by
    have := congrArg Matrix.det hCV
    rw [Matrix.det_mul, Matrix.det_mul, Matrix.det_diagonal, hdetC, zero_mul] at this
    rcases mul_eq_zero.mp this.symm with h1 | h1
    · exact absurd h1 hdet
    · exact h1
  obtain ⟨c0, -, hc0⟩ := Finset.prod_eq_zero_iff.mp hprod
  obtain ⟨bi, hbi, hmin⟩ := lowestEigenvalue_spec lib.dblMax e.eigenvaluesRe
    ⟨c0, by rw [hc0]; exact hmax⟩
  have hzero : e.eigenvaluesRe bi = 0 :=
    le_antisymm (by rw [← hc0]; exact hmin c0) (hnonneg bi)
  have hker := hvec bi
  rw [hzero, zero_smul, hC] at hker
  have hk01 := planar_gram_kernel _ _ M hM hP hb hncol _ hker
  have h0 : e.eigenvectorsRe 0 bi = 0 := hk01.1
  have h1 : e.eigenvectorsRe 1 bi = 0 := hk01.2
  have h2 : e.eigenvectorsRe 2 bi ≠ 0 := by
    intro h2
    apply hne bi
    have hall : ∀ r : Fin 3, r = 0 ∨ r = 1 ∨ r = 2 := by decide
    ext r
    rcases hall r with rfl | rfl | rfl
    · exact h0
    · exact h1
    · exact h2
  simp only [hbi, hsqrt, hIm, Fin.sum_univ_three, Matrix.zero_apply, mul_zero, add_zero]
  rw [h0, h1, mul_zero, zero_add, zero_add, Real.sqrt_mul_self_eq_abs]
  have hall : ∀ r : Fin 3, r = 0 ∨ r = 1 ∨ r = 2 := by decide
  rcases lt_or_gt_of_ne h2 with hneg | hpos
  · right
    ext r
    rcases hall r with rfl | rfl | rfl
    · simp [h0]
    · simp [h1]
    · simp only [Matrix.cons_val_two, Matrix.tail_cons, Matrix.head_cons]
      rw [abs_of_neg hneg]
      field_simp
  · left
    ext r
    rcases hall r with rfl | rfl | rfl
    · simp [h0]
    · simp [h1]
    · simp only [Matrix.cons_val_two, Matrix.tail_cons, Matrix.head_cons]
      rw [abs_of_pos hpos]
      field_simp

theorem planarCloud_plane (j : Fin 4) : planarCloud ℝ j 2 = 0 := by
  fin_cases j <;> simp [planarCloud, Matrix.vecHead, Matrix.vecTail]

theorem planar_neighbourPoints (lib : Libs ℝ)
    (hq : ∀ j : Fin 4, lib.findNeighbors 4 (planarCloud ℝ) (planarCloud ℝ 0) 4 j = j.val) :
    neighbourPoints lib (planarCloud ℝ) 4 0 = planarCloud ℝ := by
  funext j
  simp only [neighbourPoints, hq, rowAt, j.isLt, dif_pos]

theorem planar_covariance (lib : Libs ℝ)
    (hq : ∀ j : Fin 4, lib.findNeighbors 4 (planarCloud ℝ) (planarCloud ℝ 0) 4 j = j.val) :
    neighbourCovariance lib (planarCloud ℝ) 4 0 = Matrix.diagonal ![2, 2, 0] := by
  have hrow : ∀ j : Fin 4, rowAt (planarCloud ℝ) j.val = planarCloud ℝ j := by
    intro j
    simp only [rowAt, j.isLt, dif_pos]
  ext r c
  simp only [neighbourCovariance, hq, hrow, Matrix.mul_apply, Matrix.transpose_apply,
    Fin.sum_univ_four, Pi.sub_apply]
  fin_cases r <;> fin_cases c <;>
    simp [planarCloud, Matrix.vecHead, Matrix.vecTail] <;> norm_num

theorem planarCloud_not_collinear : ¬ Collinear ℝ (Set.range (planarCloud ℝ)) := by
  rw [collinear_iff_exists_forall_eq_smul_vadd]
  rintro ⟨p0, v, hv⟩
  obtain ⟨r0, h0⟩ := hv (planarCloud ℝ 0) ⟨0, rfl⟩
  obtain ⟨r1, h1⟩ := hv (planarCloud ℝ 1) ⟨1, rfl⟩
  obtain ⟨r2, h2⟩ := hv (planarCloud ℝ 2) ⟨2, rfl⟩
  have a0 := congrFun h0 0
  have a1 := congrFun h1 0
  have a2 := congrFun h2 0
  have b0 := congrFun h0 1
  have b1 := congrFun h1 1
  have b2 := congrFun h2 1
  simp [planarCloud, Matrix.vecHead, Matrix.vecTail] at a0 a1 a2 b0 b1 b2
  have e1 : (r0 - r1) * v 0 = 2 := by linarith
  have e2 : (r0 - r1) * v 1 = 0 := by linarith
  have e3 : (r2 - r1) * v 1 = 1 := by linarith
  rcases mul_eq_zero.mp e2 with h | h
  · rw [h, zero_mul] at e1; norm_num at e1
  · rw [h, mul_zero] at e3; norm_num at e3

end NormalLemmas

/-! ## Theorems -/

/-- C7: for all rigid transforms `T1`, `T2` and every point cloud `X`,
moving `X` by `compose T2 T1` equals moving it by `T1` and then by `T2`;
`compose T2 T1 = (R2*R1, R2*t1 + t2)`. -/
theorem C7_move_compose {K : Type} [Semiring K] {n : Nat} (X : PointCloud K n)
    (T1 T2 : RigidTransfo K) :
    movePointCloud X (compose T2 T1) = movePointCloud (movePointCloud X T1) T2 ∧
      compose T2 T1 = (T2.1 * T1.1, T2.1 * T1.2 + T2.2) := by
  refine ⟨?_, rfl⟩
  unfold movePointCloud compose
  simp only [Matrix.transpose_transpose]
  rw [replicateCols_mul_add, Matrix.mul_add, Matrix.mul_assoc, add_assoc]

/-- C8: for every pair of clouds of the same length and every SVD routine
that returns a singular value decomposition of `W` (orthogonal `U` and `V`),
the rotation `R` returned by `rigidTransformPointToPoint` satisfies
`R^T * R = 1`. -/
theorem C8_rotation_orthogonal {K : Type} [LinearOrderedField K] {n : Nat}
    (svd : Matrix (Fin 3) (Fin 3) K → JacobiSVD K) (a b : PointCloud K n)
    (hsvd : IsSVD (crossProductMatrixW a b) (svd (crossProductMatrixW a b))) :
    (rigidTransformPointToPoint svd a b).1.transpose * (rigidTransformPointToPoint svd a b).1
      = 1 := by
  obtain ⟨hU, hV, -, -⟩ := hsvd
  rw [rigidTransformPointToPoint_fst, Matrix.transpose_mul, Matrix.transpose_transpose,
    Matrix.mul_assoc, ← Matrix.mul_assoc _ (svd (crossProductMatrixW a b)).matrixV, hV,
    Matrix.one_mul]
  exact Matrix.mul_eq_one_comm.mp hU

/-- C1 (evaluation of the code): for the tetrahedron `tetraCloud` matched with
its mirror image `tetraMirror` (both centred at the origin, `W =
diag(4,4,-4)`), whatever singular value decomposition of `W` the SVD routine
returns, the matrix returned by `rigidTransformPointToPoint` as the rotation
has determinant `-1`: it is a reflection. -/
theorem C1_reflection_returned {K : Type} [LinearOrderedField K]
    (svd : Matrix (Fin 3) (Fin 3) K → JacobiSVD K)
    (hsvd : IsSVD (crossProductMatrixW (tetraCloud K) (tetraMirror K))
      (svd (crossProductMatrixW (tetraCloud K) (tetraMirror K)))) :
    (rigidTransformPointToPoint svd (tetraCloud K) (tetraMirror K)).1.det = -1 := by
  obtain ⟨hU, hV, hs, hW⟩ := hsvd
  have hu := det_sq_of_orthogonal _ hU
  have hv := det_sq_of_orthogonal _ hV
  have hdW : (crossProductMatrixW (tetraCloud K) (tetraMirror K)).det = -64 := by
    rw [crossProductMatrixW_tetra, Matrix.det_diagonal]
    simp [Fin.prod_univ_three]; norm_num
  have hdet := congrArg Matrix.det hW
  rw [hdW, Matrix.det_mul, Matrix.det_mul, Matrix.det_diagonal, Matrix.det_transpose] at hdet
  have hpos : 0 ≤ ∏ i : Fin 3,
      (svd (crossProductMatrixW (tetraCloud K) (tetraMirror K))).singularValues i :=
    Finset.prod_nonneg fun i _ => hs i
  rw [rigidTransformPointToPoint_fst, Matrix.det_mul, Matrix.det_transpose]
  generalize (svd (crossProductMatrixW (tetraCloud K) (tetraMirror K))).matrixU.det = u at *
  generalize (svd (crossProductMatrixW (tetraCloud K) (tetraMirror K))).matrixV.det = v at *
  generalize (∏ i : Fin 3,
    (svd (crossProductMatrixW (tetraCloud K) (tetraMirror K))).singularValues i) = s at *
  have huv : (v * u) * (v * u) = 1 := by
    calc (v * u) * (v * u) = (v * v) * (u * u) := by ring
      _ = 1 := by rw [hu, hv, one_mul]
  rcases mul_self_eq_one_iff.mp huv with h1 | h1
  · exfalso
    have : s = -64 := by
      calc s = (v * u) * s := by rw [h1, one_mul]
        _ = u * s * v := by ring
        _ = -64 := hdet.symm
    linarith
  · exact h1

/-- Witness of C1: the factors `mirrorSVD` are a singular value
decomposition of `W`, and with them the returned matrix has determinant
`-1`. -/
theorem C1_reflection_returned_witness :
    IsSVD (crossProductMatrixW (tetraCloud ℚ) (tetraMirror ℚ)) (mirrorSVD ℚ) ∧
      (rigidTransformPointToPoint (fun _ => mirrorSVD ℚ) (tetraCloud ℚ)
        (tetraMirror ℚ)).1.det = -1 :=
  ⟨isSVD_mirrorSVD ℚ, C1_reflection_returned (fun _ => mirrorSVD ℚ) (isSVD_mirrorSVD ℚ)⟩

/-- C2 (evaluation of the code): for the one-point clouds `a = b = {(1,0,0)}`
the matrix `W` that `rigidTransformPointToPoint` decomposes has the entry
`W(0,0) = 1`, while the centred cross-covariance is the zero matrix. -/
theorem C2_W_not_centered :
    crossProductMatrixW (unitCloud ℚ) (unitCloud ℚ) 0 0 = 1 ∧
      centeredCrossCovariance (unitCloud ℚ) (unitCloud ℚ) = 0 := by
  constructor
  · simp [crossProductMatrixW_eq, Matrix.vecMulVec, unitCloud, Matrix.sum_apply]
  · ext i j
    simp [centeredCrossCovariance, Matrix.vecMulVec, unitCloud, Matrix.sum_apply, centerOf,
      replicateRows]

/-- C3 (evaluation of the code): `skewCloudShifted` is `skewCloud` translated
by `(8,-4,0)`, and whatever singular value decomposition of `W` the SVD
routine returns, the rotation returned by `rigidTransformPointToPoint` for
this pair is not the identity. -/
theorem C3_translation_gives_rotation {K : Type} [LinearOrderedField K]
    (svd : Matrix (Fin 3) (Fin 3) K → JacobiSVD K)
    (hsvd : IsSVD (crossProductMatrixW (skewCloud K) (skewCloudShifted K))
      (svd (crossProductMatrixW (skewCloud K) (skewCloudShifted K)))) :
    (∀ i, skewCloudShifted K i = skewCloud K i + ![8, -4, 0]) ∧
      (rigidTransformPointToPoint svd (skewCloud K) (skewCloudShifted K)).1 ≠ 1 := by
  constructor
  · intro i
    ext j
    fin_cases i <;> fin_cases j <;>
      simp [skewCloud, skewCloudShifted, Matrix.vecHead, Matrix.vecTail] <;> norm_num
  · obtain ⟨hU, -, -, hW⟩ := hsvd
    rw [rigidTransformPointToPoint_fst]
    intro h
    have hU2 := Matrix.mul_eq_one_comm.mp hU
    have hVU : (svd (crossProductMatrixW (skewCloud K) (skewCloudShifted K))).matrixV
        = (svd (crossProductMatrixW (skewCloud K) (skewCloudShifted K))).matrixU := by
      have := congrArg
        (· * (svd (crossProductMatrixW (skewCloud K) (skewCloudShifted K))).matrixU) h
      simpa [Matrix.mul_assoc, hU] using this
    rw [hVU] at hW
    have hsymm := congrArg Matrix.transpose hW
    rw [Matrix.transpose_mul, Matrix.transpose_mul, Matrix.transpose_transpose,
      Matrix.diagonal_transpose, ← Matrix.mul_assoc, ← hW, crossProductMatrixW_skew] at hsymm
    have h01 := congrFun (congrFun hsymm 0) 1
    simp [Matrix.transpose_apply] at h01
    norm_num at h01

/-- Witness of C3: the factors `skewSVD` are a singular value decomposition
of `W`, and with them the returned rotation is not the identity. -/
theorem C3_translation_gives_rotation_witness :
    IsSVD (crossProductMatrixW (skewCloud ℚ) (skewCloudShifted ℚ)) (skewSVD ℚ) ∧
      ((∀ i, skewCloudShifted ℚ i = skewCloud ℚ i + ![8, -4, 0]) ∧
        (rigidTransformPointToPoint (fun _ => skewSVD ℚ) (skewCloud ℚ)
          (skewCloudShifted ℚ)).1 ≠ 1) :=
  ⟨isSVD_skewSVD ℚ, C3_translation_gives_rotation (fun _ => skewSVD ℚ) (isSVD_skewSVD ℚ)⟩

/-- Witness of C8: for `tetraCloud` and `tetraMirror` with the singular
value decomposition `mirrorSVD`, the returned matrix `R` satisfies
`R^T * R = 1`. -/
theorem C8_rotation_orthogonal_witness :
    IsSVD (crossProductMatrixW (tetraCloud ℚ) (tetraMirror ℚ)) (mirrorSVD ℚ) ∧
      (rigidTransformPointToPoint (fun _ => mirrorSVD ℚ) (tetraCloud ℚ)
          (tetraMirror ℚ)).1.transpose *
        (rigidTransformPointToPoint (fun _ => mirrorSVD ℚ) (tetraCloud ℚ) (tetraMirror ℚ)).1
        = 1 :=
  ⟨isSVD_mirrorSVD ℚ,
    C8_rotation_orthogonal (fun _ => mirrorSVD ℚ) (tetraCloud ℚ) (tetraMirror ℚ)
      (isSVD_mirrorSVD ℚ)⟩

/-- C9: on an optimizer that has been constructed and on which
`performSparceICP` has not been called, `getMovedPointCloud` returns exactly
the first cloud passed to the constructor.  The method is `const`: it is a
function of the optimizer and has no successor state. -/
theorem C9_getMovedPointCloud_before_run {S : Type} [AddCommMonoid S] [Mul S] [Sub S]
    [Div S] [One S] [NatCast S] [LT S] [DecidableRel (fun a b : S => a < b)]
    (lib : Libs S) {n1 n2 : Nat}
    (firstCloud : PointCloud S n1) (secondCloud : PointCloud S n2) (kNormals : Nat)
    (nbIterations nbIterationsIn : Int) (mu : S) (nbIterShrink : Int) (p : S)
    (method : IcpMethod) (verbose : Bool) :
    getMovedPointCloud (IcpOptimizer.new lib firstCloud secondCloud kNormals nbIterations
      nbIterationsIn mu nbIterShrink p method verbose) = ⟨n1, firstCloud⟩ :=
  rfl

/-- C10 (evaluation of the code): after `performSparceICP` on a freshly
constructed optimizer, `getMovedNormals` returns the normals estimated at
construction (the value of `getFirstNormals`), whereas the moved normal
field, the member `movingNormals`, is the first normals with the rotation
`R` of the computed transform applied to every row. -/
theorem C10_getMovedNormals_after_run {K : Type} [LinearOrderedField K] (lib : Libs K)
    {n1 n2 : Nat} (firstCloud : PointCloud K n1) (secondCloud : PointCloud K n2)
    (kNormals : Nat) (nbIterations nbIterationsIn : Int) (mu : K) (nbIterShrink : Int) (p : K)
    (method : IcpMethod) (verbose : Bool) :
    getMovedNormals (performSparceICP lib (IcpOptimizer.new lib firstCloud secondCloud
        kNormals nbIterations nbIterationsIn mu nbIterShrink p method verbose)).2
      = getFirstNormals (IcpOptimizer.new lib firstCloud secondCloud kNormals nbIterations
          nbIterationsIn mu nbIterShrink p method verbose) ∧
    (performSparceICP lib (IcpOptimizer.new lib firstCloud secondCloud
        kNormals nbIterations nbIterationsIn mu nbIterShrink p method verbose)).2.movingNormals
      = ⟨n1, ((getComputedTransfo (performSparceICP lib (IcpOptimizer.new lib firstCloud
          secondCloud kNormals nbIterations nbIterationsIn mu nbIterShrink p method
          verbose)).2).1 * (estimateNormals lib firstCloud kNormals).transpose).transpose⟩ := by
  refine ⟨rfl, ?_⟩
  simp only [performSparceICP, getComputedTransfo]
  rw [runLoops_movingNormals lib _ rfl]
  rfl

/-- C4: for every `mu > 0`, every `p` strictly between 0 and 2, every
iteration count `nbIterShrink` and every 3-vector `h` whose norm is at most
the threshold `hTilde = alpha + (p/mu)*alpha^(p-1)`, with
`alpha = (2(1-p)/mu)^(1/(2-p))`, `shrink h` is exactly the zero vector. -/
theorem C4_shrink_zero_below_threshold (mu p : ℝ) (_hmu : 0 < mu) (_hp0 : 0 < p)
    (_hp2 : p < 2) (nbIterShrink : Int) (h : TransMatrix ℝ)
    (hle : norm (cSqrt Real.sqrt) (h.map fin)
      ≤ shrinkThreshold (cPow Real.rpow) (fin mu) (fin p)) :
    shrink (cPow Real.rpow) (cSqrt Real.sqrt) (fin mu) (fin p) nbIterShrink (h.map fin)
      = 0 :=
  shrink_of_le _ _ _ _ _ _ hle

/-- Witness of C4: `mu = 1`, `p = 1/2`, `h = (1,0,0)`; the threshold is
`3/2`. -/
theorem C4_shrink_zero_below_threshold_witness :
    norm (cSqrt Real.sqrt) ((!![1; 0; 0] : TransMatrix ℝ).map fin)
        ≤ shrinkThreshold (cPow Real.rpow) (fin 1) (fin (1 / 2)) ∧
      shrink (cPow Real.rpow) (cSqrt Real.sqrt) (fin 1) (fin (1 / 2)) 5
        ((!![1; 0; 0] : TransMatrix ℝ).map fin) = 0 :=
  have hle : norm (cSqrt Real.sqrt) ((!![1; 0; 0] : TransMatrix ℝ).map fin)
      ≤ shrinkThreshold (cPow Real.rpow) (fin 1) (fin (1 / 2)) := by
    rw [norm_map_fin, shrinkThreshold_eq one_pos (by norm_num), Dbl.fin_le_fin]
    have h1 : ((2 / 1) * (1 - 1 / 2) : ℝ) = 1 := by norm_num
    rw [h1, Real.one_rpow, Real.one_rpow]
    norm_num [Matrix.vecHead, Matrix.vecTail]
  ⟨hle, C4_shrink_zero_below_threshold 1 (1 / 2) one_pos (by norm_num) (by norm_num) 5 _ hle⟩

/-- C5, as stated, fails at `mu = 1`, `p = 6/5`: `alpha = pow(-2/5, 5/4)` is
NaN, so is the threshold, the comparison `0 <= hTilde` is false, the early
return is not taken, `alpha/0` is evaluated and `shrink` returns a vector of
non-finite values. -/
theorem C5_counterexample :
    ¬ (norm (cSqrt Real.sqrt) (0 : TransMatrix (Dbl ℝ))
        ≤ shrinkThreshold (cPow Real.rpow) (fin 1) (fin (6 / 5))) ∧
      shrink (cPow Real.rpow) (cSqrt Real.sqrt) (fin 1) (fin (6 / 5)) 3 0
        = fun _ _ => nonFinite := by
  have hT : shrinkThreshold (cPow Real.rpow) (fin 1) (fin (6 / 5)) = nonFinite := by
    simp only [shrinkThreshold, shrinkAlpha_six_fifths, Dbl.nonFinite_add]
  have hnot : ¬ (norm (cSqrt Real.sqrt) (0 : TransMatrix (Dbl ℝ))
      ≤ shrinkThreshold (cPow Real.rpow) (fin 1) (fin (6 / 5))) := by
    rw [hT]; exact Dbl.not_le_nonFinite _
  refine ⟨hnot, ?_⟩
  unfold shrink
  simp only [if_neg hnot, shrinkAlpha_six_fifths, Dbl.nonFinite_div, Dbl.nonFinite_add]
  rw [shrinkIter_nonFinite _ _ (by norm_num)]
  ext i j
  simp [Matrix.smul_apply]

/-- C5 (amended): for every `mu > 0` and every `p` in `(0,2)` with `p <= 1`,
or for which the threshold computed by `shrink` is a number, the norm of the
zero vector passes the test `hNorm <= hTilde`, so `shrink` applied to the
zero vector returns the zero vector through the early return and evaluates
neither `alpha/hNorm` nor `pow(hNorm, p-2)`. -/
theorem C5_shrink_zero_early_return (mu p : ℝ) (hmu : 0 < mu) (hp0 : 0 < p) (hp2 : p < 2)
    (hfin : p ≤ 1 ∨ shrinkThreshold (cPow Real.rpow) (fin mu) (fin p) ≠ nonFinite)
    (nbIterShrink : Int) :
    norm (cSqrt Real.sqrt) (0 : TransMatrix (Dbl ℝ))
        ≤ shrinkThreshold (cPow Real.rpow) (fin mu) (fin p) ∧
      shrink (cPow Real.rpow) (cSqrt Real.sqrt) (fin mu) (fin p) nbIterShrink 0 = 0 := by
  have hne : shrinkThreshold (cPow Real.rpow) (fin mu) (fin p) ≠ nonFinite := by
    rcases hfin with h | h
    · exact shrinkThreshold_finite hmu h
    · exact h
  have hle : norm (cSqrt Real.sqrt) (0 : TransMatrix (Dbl ℝ))
      ≤ shrinkThreshold (cPow Real.rpow) (fin mu) (fin p) := by
    cases ht : shrinkThreshold (cPow Real.rpow) (fin mu) (fin p) with
    | nonFinite => exact absurd ht hne
    | fin t =>
      rw [norm_zero_dbl, Dbl.fin_le_fin]
      exact shrinkThreshold_nonneg hmu hp0 hp2 ht
  refine ⟨hle, ?_⟩
  rw [zero_map_fin] at hle ⊢
  exact shrink_of_le _ _ _ _ _ _ hle

/-- Witness of C5 (amended): `mu = 1`, `p = 1/2`. -/
theorem C5_shrink_zero_early_return_witness :
    norm (cSqrt Real.sqrt) (0 : TransMatrix (Dbl ℝ))
        ≤ shrinkThreshold (cPow Real.rpow) (fin 1) (fin (1 / 2)) ∧
      shrink (cPow Real.rpow) (cSqrt Real.sqrt) (fin 1) (fin (1 / 2)) 5 0 = 0 :=
  C5_shrink_zero_early_return 1 (1 / 2) one_pos (by norm_num) (by norm_num)
    (Or.inl (by norm_num)) 5

/-- C6: for every `mu > 0`, every `p` with `0 < p <= 1` and every 3-vector
`h` whose norm is at most the threshold computed by `shrink`, `shrink`
returns the zero vector and the zero vector is a global minimizer of
`f(z) = ||z||^p + (mu/2)*||z - h||^2`: `f(0) <= f(z)` for every `z`. -/
theorem C6_zero_is_global_minimizer (mu p : ℝ) (hmu : 0 < mu) (hp0 : 0 < p) (hp1 : p ≤ 1)
    (nbIterShrink : Int) (h : TransMatrix ℝ)
    (hle : norm (cSqrt Real.sqrt) (h.map fin)
      ≤ shrinkThreshold (cPow Real.rpow) (fin mu) (fin p))
    (z : TransMatrix ℝ) :
    shrink (cPow Real.rpow) (cSqrt Real.sqrt) (fin mu) (fin p) nbIterShrink (h.map fin) = 0 ∧
      shrinkObjective Real.rpow Real.sqrt mu p h 0
        ≤ shrinkObjective Real.rpow Real.sqrt mu p h z := by
  refine ⟨shrink_of_le _ _ _ _ _ _ hle, ?_⟩
  rw [norm_map_fin, shrinkThreshold_eq hmu hp1, Dbl.fin_le_fin] at hle
  have hzz : 0 ≤ z 0 0 * z 0 0 + z 1 0 * z 1 0 + z 2 0 * z 2 0 :=
    add_nonneg (add_nonneg (mul_self_nonneg _) (mul_self_nonneg _)) (mul_self_nonneg _)
  have hr : 0 ≤ Real.sqrt (z 0 0 * z 0 0 + z 1 0 * z 1 0 + z 2 0 * z 2 0) := Real.sqrt_nonneg _
  have hkey := shrink_key hmu hp0 hp1 hr
  have hcs := dot_le_sqrt_mul_sqrt (z 0 0) (z 1 0) (z 2 0) (h 0 0) (h 1 0) (h 2 0)
  have hrr := Real.mul_self_sqrt hzz
  have hmono := mul_le_mul_of_nonneg_left hle (mul_nonneg hmu.le hr)
  have hcs2 := mul_le_mul_of_nonneg_left hcs hmu.le
  simp only [shrinkObjective, norm, Matrix.sub_apply, Matrix.zero_apply, Real.rpow_eq_pow]
  rw [Real.mul_self_sqrt
      (add_nonneg (add_nonneg (mul_self_nonneg _) (mul_self_nonneg _)) (mul_self_nonneg _)),
    Real.mul_self_sqrt
      (add_nonneg (add_nonneg (mul_self_nonneg _) (mul_self_nonneg _)) (mul_self_nonneg _))]
  simp only [mul_zero, add_zero, Real.sqrt_zero, Real.zero_rpow hp0.ne', zero_add, zero_sub]
  rw [hrr] at hkey
  nlinarith [hkey, hmono, hcs2]

/-- Witness of C6: `mu = 1`, `p = 1/2`, `h = (1,0,0)` (threshold `3/2`),
compared with `z = h`. -/
theorem C6_zero_is_global_minimizer_witness :
    shrink (cPow Real.rpow) (cSqrt Real.sqrt) (fin 1) (fin (1 / 2)) 5
        ((!![1; 0; 0] : TransMatrix ℝ).map fin) = 0 ∧
      shrinkObjective Real.rpow Real.sqrt 1 (1 / 2) (!![1; 0; 0] : TransMatrix ℝ) 0
        ≤ shrinkObjective Real.rpow Real.sqrt 1 (1 / 2) (!![1; 0; 0] : TransMatrix ℝ)
            !![1; 0; 0] :=
  C6_zero_is_global_minimizer 1 (1 / 2) one_pos (by norm_num) (by norm_num) 5 _
    (by
      rw [norm_map_fin, shrinkThreshold_eq one_pos (by norm_num), Dbl.fin_le_fin]
      have h1 : ((2 / 1) * (1 - 1 / 2) : ℝ) = 1 := by norm_num
      rw [h1, Real.one_rpow, Real.one_rpow]
      norm_num [Matrix.vecHead, Matrix.vecTail]) _

/-- C11 (evaluation of the code): on an optimizer that has been constructed
and on which `performSparceICP` has not been called, `getMovedNormals`
returns the default-constructed member `movingNormals`, a matrix with no
rows, whereas `getFirstNormals` returns the `n1` normals estimated for the
first cloud. -/
theorem C11_getMovedNormals_before_run {S : Type} [AddCommMonoid S] [Mul S] [Sub S]
    [Div S] [One S] [NatCast S] [LT S] [DecidableRel (fun a b : S => a < b)]
    (lib : Libs S) {n1 n2 : Nat}
    (firstCloud : PointCloud S n1) (secondCloud : PointCloud S n2) (kNormals : Nat)
    (nbIterations nbIterationsIn : Int) (mu : S) (nbIterShrink : Int) (p : S)
    (method : IcpMethod) (verbose : Bool) :
    getMovedNormals (IcpOptimizer.new lib firstCloud secondCloud kNormals nbIterations
        nbIterationsIn mu nbIterShrink p method verbose) = emptyCloud ∧
      (getMovedNormals (IcpOptimizer.new lib firstCloud secondCloud kNormals nbIterations
        nbIterationsIn mu nbIterShrink p method verbose)).1 = 0 ∧
      getFirstNormals (IcpOptimizer.new lib firstCloud secondCloud kNormals nbIterations
        nbIterationsIn mu nbIterShrink p method verbose)
        = ⟨n1, estimateNormals lib firstCloud kNormals⟩ :=
  ⟨rfl, rfl, rfl⟩

/-- C13: for every reference cloud and every query cloud, given a
nearest-neighbour query that is exact on them (it returns the index of a
row of the reference cloud whose squared distance to the query point is
minimal), `computeCorrespondances` returns a cloud with one row per row of
the query cloud (its type), and row `i` is a row of the reference cloud
whose squared distance to row `i` of the query cloud is minimal over all
rows of the reference cloud. -/
theorem C13_computeCorrespondances_nearest {K : Type} [LinearOrderedField K] (lib : Libs K)
    {m n : Nat} (refCloud : PointCloud K m) (queryCloud : PointCloud K n)
    (hexact : ∀ i : Fin n, lib.findNeighbors m refCloud (queryCloud i) 1 0 < m ∧
      ∀ j : Fin m, sqDist (rowAt refCloud (lib.findNeighbors m refCloud (queryCloud i) 1 0))
        (queryCloud i) ≤ sqDist (refCloud j) (queryCloud i)) :
    ∀ i : Fin n, ∃ j : Fin m, computeCorrespondances lib refCloud queryCloud i = refCloud j ∧
      ∀ j2 : Fin m, sqDist (refCloud j) (queryCloud i) ≤ sqDist (refCloud j2) (queryCloud i) := by
  intro i
  obtain ⟨hlt, hmin⟩ := hexact i
  refine ⟨⟨_, hlt⟩, ?_, ?_⟩
  · simp only [computeCorrespondances, rowAt, dif_pos hlt]
  · intro j2
    have := hmin j2
    simpa only [rowAt, dif_pos hlt] using this

/-- Witness of C13: the four-point reference cloud `planarCloud` and the
query cloud `skewCloud`, with the query answered by exhaustive search.  For
query row 3, the point `(-3,5,0)`, the squared distances to the four
reference rows are 41, 29, 25 and 45, and the row returned is row 2, the
point `(0,1,0)`. -/
theorem C13_computeCorrespondances_nearest_witness :
    (∃ j : Fin 4,
      computeCorrespondances (searchLibs ℚ) (planarCloud ℚ) (skewCloud ℚ) 3
        = planarCloud ℚ j ∧
      ∀ j2 : Fin 4, sqDist (planarCloud ℚ j) (skewCloud ℚ 3)
        ≤ sqDist (planarCloud ℚ j2) (skewCloud ℚ 3)) ∧
    sqDist (planarCloud ℚ 0) (skewCloud ℚ 3) = 41 ∧
    sqDist (planarCloud ℚ 1) (skewCloud ℚ 3) = 29 ∧
    sqDist (planarCloud ℚ 2) (skewCloud ℚ 3) = 25 ∧
    sqDist (planarCloud ℚ 3) (skewCloud ℚ 3) = 45 ∧
    computeCorrespondances (searchLibs ℚ) (planarCloud ℚ) (skewCloud ℚ) 3
      = planarCloud ℚ 2 := by
  have h := C13_computeCorrespondances_nearest (searchLibs ℚ) (planarCloud ℚ) (skewCloud ℚ)
    (fun i => nearestIndex_spec (by norm_num) (planarCloud ℚ) (skewCloud ℚ i)) 3
  have d0 : sqDist (planarCloud ℚ 0) (skewCloud ℚ 3) = 41 := by
    simp [sqDist, Fin.sum_univ_three, planarCloud, skewCloud, Matrix.vecHead, Matrix.vecTail]
    norm_num
  have d1 : sqDist (planarCloud ℚ 1) (skewCloud ℚ 3) = 29 := by
    simp [sqDist, Fin.sum_univ_three, planarCloud, skewCloud, Matrix.vecHead, Matrix.vecTail]
    norm_num
  have d2 : sqDist (planarCloud ℚ 2) (skewCloud ℚ 3) = 25 := by
    simp [sqDist, Fin.sum_univ_three, planarCloud, skewCloud, Matrix.vecHead, Matrix.vecTail]
    norm_num
  have d3 : sqDist (planarCloud ℚ 3) (skewCloud ℚ 3) = 45 := by
    simp [sqDist, Fin.sum_univ_three, planarCloud, skewCloud, Matrix.vecHead, Matrix.vecTail]
    norm_num
  refine ⟨h, d0, d1, d2, d3, ?_⟩
  obtain ⟨j, hj, hmin⟩ := h
  have h2 := hmin 2
  rw [d2] at h2
  have hall : ∀ r : Fin 4, r = 0 ∨ r = 1 ∨ r = 2 ∨ r = 3 := by decide
  rcases hall j with rfl | rfl | rfl | rfl
  · rw [d0] at h2; norm_num at h2
  · rw [d1] at h2; norm_num at h2
  · exact hj
  · rw [d3] at h2; norm_num at h2

/-- C14, as stated, fails: the constructor called with `mu = -1` and `p = 5`
returns an optimizer that holds these values, and `performSparceICP` on it
runs its loops, returns 0 and marks the optimizer as computed. -/
theorem C14_counterexample :
    (IcpOptimizer.new (stubLibs ℚ) (tetraCloud ℚ) (tetraMirror ℚ) 4 1 1 (-1) 0 5
        IcpMethod.pointToPoint false).mu = -1 ∧
      (IcpOptimizer.new (stubLibs ℚ) (tetraCloud ℚ) (tetraMirror ℚ) 4 1 1 (-1) 0 5
        IcpMethod.pointToPoint false).p = 5 ∧
      (performSparceICP (stubLibs ℚ) (IcpOptimizer.new (stubLibs ℚ) (tetraCloud ℚ)
        (tetraMirror ℚ) 4 1 1 (-1) 0 5 IcpMethod.pointToPoint false)).1 = 0 ∧
      (performSparceICP (stubLibs ℚ) (IcpOptimizer.new (stubLibs ℚ) (tetraCloud ℚ)
        (tetraMirror ℚ) 4 1 1 (-1) 0 5 IcpMethod.pointToPoint false)).2.hasBeenComputed
        = true :=
  ⟨rfl, rfl, rfl, rfl⟩

/-- C14 (amended): the constructor validates nothing: for every `p` and every
`mu` it returns an optimizer that holds them unchanged, not yet computed, on
which `performSparceICP` returns 0 and sets `hasBeenComputed`. -/
theorem C14_constructor_accepts_all {S : Type} [AddCommMonoid S] [Mul S] [Sub S]
    [Div S] [One S] [NatCast S] [LE S] [DecidableRel (fun a b : S => a ≤ b)] [LT S]
    [DecidableRel (fun a b : S => a < b)]
    (lib : Libs S) {n1 n2 : Nat}
    (firstCloud : PointCloud S n1) (secondCloud : PointCloud S n2) (kNormals : Nat)
    (nbIterations nbIterationsIn : Int) (mu : S) (nbIterShrink : Int) (p : S)
    (method : IcpMethod) (verbose : Bool) :
    (IcpOptimizer.new lib firstCloud secondCloud kNormals nbIterations nbIterationsIn mu
        nbIterShrink p method verbose).mu = mu ∧
      (IcpOptimizer.new lib firstCloud secondCloud kNormals nbIterations nbIterationsIn mu
        nbIterShrink p method verbose).p = p ∧
      (IcpOptimizer.new lib firstCloud secondCloud kNormals nbIterations nbIterationsIn mu
        nbIterShrink p method verbose).hasBeenComputed = false ∧
      (performSparceICP lib (IcpOptimizer.new lib firstCloud secondCloud kNormals
        nbIterations nbIterationsIn mu nbIterShrink p method verbose)).1 = 0 ∧
      (performSparceICP lib (IcpOptimizer.new lib firstCloud secondCloud kNormals
        nbIterations nbIterationsIn mu nbIterShrink p method verbose)).2.hasBeenComputed
        = true :=
  ⟨rfl, rfl, rfl, rfl, rfl⟩

/-- C15: with `method = pointToPlane`, `rigidTransformPointToPlane` returns
the identity rotation and the zero translation whatever its arguments, and
after `performSparceICP` on a freshly constructed optimizer, for every pair
of input clouds and every outer and inner iteration count, the moved cloud
is the first cloud and the computed transform is the identity rotation with
the zero translation. -/
theorem C15_pointToPlane_identity {K : Type} [LinearOrderedField K] (lib : Libs K)
    {n1 n2 : Nat} (firstCloud : PointCloud K n1) (secondCloud : PointCloud K n2)
    (kNormals : Nat) (nbIterations nbIterationsIn : Int) (mu : K) (nbIterShrink : Int) (p : K)
    (verbose : Bool) :
    (∀ (m : Nat) (a b : PointCloud K n1) (nrm : PointCloud K m),
        rigidTransformPointToPlane a b nrm = ((1, 0) : RigidTransfo K)) ∧
      getMovedPointCloud (performSparceICP lib (IcpOptimizer.new lib firstCloud secondCloud
        kNormals nbIterations nbIterationsIn mu nbIterShrink p IcpMethod.pointToPlane
        verbose)).2 = ⟨n1, firstCloud⟩ ∧
      getComputedTransfo (performSparceICP lib (IcpOptimizer.new lib firstCloud secondCloud
        kNormals nbIterations nbIterationsIn mu nbIterShrink p IcpMethod.pointToPlane
        verbose)).2 = (1, 0) := by
  have hinv := runLoops_invariant lib (IcpOptimizer.new lib firstCloud secondCloud
      kNormals nbIterations nbIterationsIn mu nbIterShrink p IcpMethod.pointToPlane verbose)
    (fun st => st.movingPC = firstCloud ∧ st.computedTransfo = (1, 0))
    (by
      rintro matchPC st ⟨h1, h2⟩
      constructor
      · show movePointCloud st.movingPC (rigidTransformPointToPlane _ _ _) = firstCloud
        rw [show rigidTransformPointToPlane _ _ _ = ((1, 0) : RigidTransfo K) from rfl,
          movePointCloud_one, h1]
      · show compose (rigidTransformPointToPlane _ _ _) st.computedTransfo = (1, 0)
        rw [show rigidTransformPointToPlane _ _ _ = ((1, 0) : RigidTransfo K) from rfl,
          compose_one, h2])
    ⟨rfl, rfl⟩
  refine ⟨fun _ _ _ _ => rfl, ?_, ?_⟩
  · show (⟨n1, (runLoops lib _).movingPC⟩ : DynCloud K) = ⟨n1, firstCloud⟩
    rw [hinv.1]
  · exact hinv.2

/-- C16: if the outer iteration count is 0 or the inner iteration count is 0,
`performSparceICP` on a freshly constructed optimizer returns 0, marks the
optimizer as computed and leaves the Lagrange multipliers all zero;
afterwards `getMovedPointCloud` returns the first cloud and
`getComputedTransfo` the identity rotation with the zero translation. -/
theorem C16_no_iteration {S : Type} [AddCommMonoid S] [Mul S] [Sub S]
    [Div S] [One S] [NatCast S] [LE S] [DecidableRel (fun a b : S => a ≤ b)] [LT S]
    [DecidableRel (fun a b : S => a < b)]
    (lib : Libs S) {n1 n2 : Nat}
    (firstCloud : PointCloud S n1) (secondCloud : PointCloud S n2) (kNormals : Nat)
    (nbIterations nbIterationsIn : Int) (mu : S) (nbIterShrink : Int) (p : S)
    (method : IcpMethod) (verbose : Bool)
    (hzero : nbIterations = 0 ∨ nbIterationsIn = 0) :
    (performSparceICP lib (IcpOptimizer.new lib firstCloud secondCloud kNormals
        nbIterations nbIterationsIn mu nbIterShrink p method verbose)).1 = 0 ∧
      (performSparceICP lib (IcpOptimizer.new lib firstCloud secondCloud kNormals
        nbIterations nbIterationsIn mu nbIterShrink p method verbose)).2.hasBeenComputed
        = true ∧
      (performSparceICP lib (IcpOptimizer.new lib firstCloud secondCloud kNormals
        nbIterations nbIterationsIn mu nbIterShrink p method verbose)).2.lambda = 0 ∧
      getMovedPointCloud (performSparceICP lib (IcpOptimizer.new lib firstCloud secondCloud
        kNormals nbIterations nbIterationsIn mu nbIterShrink p method verbose)).2
        = ⟨n1, firstCloud⟩ ∧
      getComputedTransfo (performSparceICP lib (IcpOptimizer.new lib firstCloud secondCloud
        kNormals nbIterations nbIterationsIn mu nbIterShrink p method verbose)).2
        = (1, 0) := by
  have h := runLoops_of_zero lib (IcpOptimizer.new lib firstCloud secondCloud kNormals
    nbIterations nbIterationsIn mu nbIterShrink p method verbose) hzero
  refine ⟨rfl, rfl, ?_, ?_, ?_⟩
  · show (runLoops lib _).lambda = 0
    rw [h]; rfl
  · show (⟨n1, (runLoops lib _).movingPC⟩ : DynCloud S) = ⟨n1, firstCloud⟩
    rw [h]; rfl
  · show (runLoops lib _).computedTransfo = (1, 0)
    rw [h]; rfl

/-- Witness of C16: five outer iterations and no inner iteration on
`tetraCloud` and `tetraMirror`. -/
theorem C16_no_iteration_witness :
    (performSparceICP (stubLibs ℚ) (IcpOptimizer.new (stubLibs ℚ) (tetraCloud ℚ)
        (tetraMirror ℚ) 4 5 0 1 3 (1 / 2) IcpMethod.pointToPoint false)).1 = 0 ∧
      (performSparceICP (stubLibs ℚ) (IcpOptimizer.new (stubLibs ℚ) (tetraCloud ℚ)
        (tetraMirror ℚ) 4 5 0 1 3 (1 / 2) IcpMethod.pointToPoint false)).2.hasBeenComputed
        = true ∧
      (performSparceICP (stubLibs ℚ) (IcpOptimizer.new (stubLibs ℚ) (tetraCloud ℚ)
        (tetraMirror ℚ) 4 5 0 1 3 (1 / 2) IcpMethod.pointToPoint false)).2.lambda = 0 ∧
      getMovedPointCloud (performSparceICP (stubLibs ℚ) (IcpOptimizer.new (stubLibs ℚ)
        (tetraCloud ℚ) (tetraMirror ℚ) 4 5 0 1 3 (1 / 2) IcpMethod.pointToPoint false)).2
        = ⟨4, tetraCloud ℚ⟩ ∧
      getComputedTransfo (performSparceICP (stubLibs ℚ) (IcpOptimizer.new (stubLibs ℚ)
        (tetraCloud ℚ) (tetraMirror ℚ) 4 5 0 1 3 (1 / 2) IcpMethod.pointToPoint false)).2
        = (1, 0) :=
  C16_no_iteration (stubLibs ℚ) (tetraCloud ℚ) (tetraMirror ℚ) 4 5 0 1 3 (1 / 2)
    IcpMethod.pointToPoint false (Or.inr rfl)

/-- C17: for every configuration, after `performSparceICP` on a freshly
constructed optimizer the moved cloud is the computed transform applied to
the first cloud, `getMovedPointCloud() = movePointCloud(firstCloud,
getComputedTransfo())`; the same equality holds in the state reached after
any number `k` of outer passes followed by any number `j` of inner
passes. -/
theorem C17_moved_cloud_is_transformed_first {K : Type} [LinearOrderedField K] (lib : Libs K)
    {n1 n2 : Nat} (firstCloud : PointCloud K n1) (secondCloud : PointCloud K n2)
    (kNormals : Nat) (nbIterations nbIterationsIn : Int) (mu : K) (nbIterShrink : Int) (p : K)
    (method : IcpMethod) (verbose : Bool) :
    getMovedPointCloud (performSparceICP lib (IcpOptimizer.new lib firstCloud secondCloud
        kNormals nbIterations nbIterationsIn mu nbIterShrink p method verbose)).2
      = ⟨n1, movePointCloud firstCloud (getComputedTransfo (performSparceICP lib
          (IcpOptimizer.new lib firstCloud secondCloud kNormals nbIterations nbIterationsIn
            mu nbIterShrink p method verbose)).2)⟩ ∧
    ∀ k j : Nat,
      ((innerIteration lib (IcpOptimizer.new lib firstCloud secondCloud kNormals nbIterations
          nbIterationsIn mu nbIterShrink p method verbose)
        (computeCorrespondances lib secondCloud
          ((outerIteration lib (IcpOptimizer.new lib firstCloud secondCloud kNormals
            nbIterations nbIterationsIn mu nbIterShrink p method verbose))^[k]
            ⟨firstCloud, estimateNormals lib firstCloud kNormals, (1, 0), 0⟩).movingPC))^[j]
        ((outerIteration lib (IcpOptimizer.new lib firstCloud secondCloud kNormals
            nbIterations nbIterationsIn mu nbIterShrink p method verbose))^[k]
          ⟨firstCloud, estimateNormals lib firstCloud kNormals, (1, 0), 0⟩)).movingPC
      = movePointCloud firstCloud
          ((innerIteration lib (IcpOptimizer.new lib firstCloud secondCloud kNormals
              nbIterations nbIterationsIn mu nbIterShrink p method verbose)
            (computeCorrespondances lib secondCloud
              ((outerIteration lib (IcpOptimizer.new lib firstCloud secondCloud kNormals
                nbIterations nbIterationsIn mu nbIterShrink p method verbose))^[k]
                ⟨firstCloud, estimateNormals lib firstCloud kNormals, (1, 0), 0⟩).movingPC))^[j]
            ((outerIteration lib (IcpOptimizer.new lib firstCloud secondCloud kNormals
                nbIterations nbIterationsIn mu nbIterShrink p method verbose))^[k]
              ⟨firstCloud, estimateNormals lib firstCloud kNormals, (1, 0), 0⟩)).computedTransfo := by
  have hstep : ∀ (matchPC : PointCloud K n1) (st : LoopState K n1),
      st.movingPC = movePointCloud firstCloud st.computedTransfo →
      (innerIteration lib (IcpOptimizer.new lib firstCloud secondCloud kNormals nbIterations
          nbIterationsIn mu nbIterShrink p method verbose) matchPC st).movingPC
        = movePointCloud firstCloud
          (innerIteration lib (IcpOptimizer.new lib firstCloud secondCloud kNormals
            nbIterations nbIterationsIn mu nbIterShrink p method verbose) matchPC
            st).computedTransfo := by
    intro matchPC st h
    simp only [innerIteration]
    rw [← movePointCloud_compose, ← h]
  have h0 : firstCloud = movePointCloud firstCloud ((1, 0) : RigidTransfo K) :=
    (movePointCloud_one firstCloud).symm
  constructor
  · have hinv := runLoops_invariant lib (IcpOptimizer.new lib firstCloud secondCloud
        kNormals nbIterations nbIterationsIn mu nbIterShrink p method verbose)
      (fun st => st.movingPC = movePointCloud firstCloud st.computedTransfo) hstep h0
    show (⟨n1, (runLoops lib _).movingPC⟩ : DynCloud K) = ⟨n1, movePointCloud firstCloud
      (runLoops lib _).computedTransfo⟩
    rw [hinv]
  · intro k j
    exact (loops_invariant lib (IcpOptimizer.new lib firstCloud secondCloud
        kNormals nbIterations nbIterationsIn mu nbIterShrink p method verbose)
      (fun st => st.movingPC = movePointCloud firstCloud st.computedTransfo) hstep
      ⟨firstCloud, estimateNormals lib firstCloud kNormals, (1, 0), 0⟩ h0 k j).2

/-- C18: for every pair of non-empty clouds `a`, `b` of the same length and
every SVD routine, with `(R,t) = rigidTransformPointToPoint a b`, the
centroid of `movePointCloud a (R,t)` is the centroid of `b`, and
`R*cA + t = cB`. -/
theorem C18_centroid_matched {K : Type} [LinearOrderedField K] {n : Nat} (hn : 0 < n)
    (svd : Matrix (Fin 3) (Fin 3) K → JacobiSVD K) (a b : PointCloud K n) :
    centerOf (movePointCloud a (rigidTransformPointToPoint svd a b)) = centerOf b ∧
      (rigidTransformPointToPoint svd a b).1 * (centerOf a).transpose
          + (rigidTransformPointToPoint svd a b).2 = (centerOf b).transpose := by
  have h2 : (rigidTransformPointToPoint svd a b).1 * (centerOf a).transpose
      + (rigidTransformPointToPoint svd a b).2 = (centerOf b).transpose := by
    simp only [rigidTransformPointToPoint]
    abel
  refine ⟨?_, h2⟩
  rw [centerOf_movePointCloud hn, h2, Matrix.transpose_transpose]

/-- Witness of C18: `tetraCloud` and `tetraMirror` with the factors
`mirrorSVD`. -/
theorem C18_centroid_matched_witness :
    centerOf (movePointCloud (tetraCloud ℚ)
        (rigidTransformPointToPoint (fun _ => mirrorSVD ℚ) (tetraCloud ℚ) (tetraMirror ℚ)))
        = centerOf (tetraMirror ℚ) ∧
      (rigidTransformPointToPoint (fun _ => mirrorSVD ℚ) (tetraCloud ℚ) (tetraMirror ℚ)).1
          * (centerOf (tetraCloud ℚ)).transpose
          + (rigidTransformPointToPoint (fun _ => mirrorSVD ℚ) (tetraCloud ℚ)
              (tetraMirror ℚ)).2 = (centerOf (tetraMirror ℚ)).transpose :=
  C18_centroid_matched (by norm_num) (fun _ => mirrorSVD ℚ) (tetraCloud ℚ) (tetraMirror ℚ)

/-- C19: for `p = 1`, every `mu > 0` and every `nbIterShrink >= 1`, `shrink`
is soft-thresholding: `shrink h = 0` when `||h|| <= 1/mu`, and
`shrink h = (1 - 1/(mu*||h||))*h` otherwise, whatever the number of
iterations; in both cases the value returned is a global minimizer of
`||z|| + (mu/2)*||z - h||^2`. -/
theorem C19_soft_thresholding (mu : ℝ) (hmu : 0 < mu) (nbIterShrink : Int)
    (hn : 1 ≤ nbIterShrink) (h : TransMatrix ℝ) :
    (norm Real.sqrt h ≤ 1 / mu →
      shrink (cPow Real.rpow) (cSqrt Real.sqrt) (fin mu) (fin 1) nbIterShrink (h.map fin) = 0 ∧
      ∀ z : TransMatrix ℝ, shrinkObjective Real.rpow Real.sqrt mu 1 h 0
        ≤ shrinkObjective Real.rpow Real.sqrt mu 1 h z) ∧
    (1 / mu < norm Real.sqrt h →
      shrink (cPow Real.rpow) (cSqrt Real.sqrt) (fin mu) (fin 1) nbIterShrink (h.map fin)
        = ((1 - 1 / (mu * norm Real.sqrt h)) • h).map fin ∧
      ∀ z : TransMatrix ℝ,
        shrinkObjective Real.rpow Real.sqrt mu 1 h ((1 - 1 / (mu * norm Real.sqrt h)) • h)
          ≤ shrinkObjective Real.rpow Real.sqrt mu 1 h z) := by
  constructor
  · intro hle
    constructor
    · apply shrink_of_le
      rw [norm_map_fin_eq, shrinkThreshold_one hmu, Dbl.fin_le_fin]
      exact hle
    · intro z
      apply shrinkObjective_zero_le hmu one_pos le_rfl
      have e : ((2 / mu) * (1 - 1)) ^ ((1 : ℝ) / (2 - 1))
          + (1 / mu) * (((2 / mu) * (1 - 1)) ^ ((1 : ℝ) / (2 - 1))) ^ ((1 : ℝ) - 1) = 1 / mu := by
        norm_num
      rw [e]
      exact hle
  · intro hgt
    have hpos : 0 < norm Real.sqrt h := lt_trans (by positivity) hgt
    have hk : 0 < nbIterShrink.toNat := by omega
    constructor
    · apply shrink_of_gt nbIterShrink h (shrinkAlpha_one hmu) hpos
      · rw [norm_map_fin_eq, shrinkThreshold_one hmu, Dbl.fin_le_fin]
        exact not_le.mpr hgt
      · exact shrinkIter_one_iterate hmu hpos _ hk
    · intro z
      exact shrinkObjective_soft_le hmu h z hgt

/-- Witness of C19: `mu = 1`, one iteration, `h = (2,0,0)`. -/
theorem C19_soft_thresholding_witness :
    (norm Real.sqrt (!![2; 0; 0] : TransMatrix ℝ) ≤ 1 / 1 →
      shrink (cPow Real.rpow) (cSqrt Real.sqrt) (fin 1) (fin 1) 1
        ((!![2; 0; 0] : TransMatrix ℝ).map fin) = 0 ∧
      ∀ z : TransMatrix ℝ, shrinkObjective Real.rpow Real.sqrt 1 1 !![2; 0; 0] 0
        ≤ shrinkObjective Real.rpow Real.sqrt 1 1 !![2; 0; 0] z) ∧
    (1 / 1 < norm Real.sqrt (!![2; 0; 0] : TransMatrix ℝ) →
      shrink (cPow Real.rpow) (cSqrt Real.sqrt) (fin 1) (fin 1) 1
        ((!![2; 0; 0] : TransMatrix ℝ).map fin)
        = ((1 - 1 / (1 * norm Real.sqrt (!![2; 0; 0] : TransMatrix ℝ)))
            • (!![2; 0; 0] : TransMatrix ℝ)).map fin ∧
      ∀ z : TransMatrix ℝ,
        shrinkObjective Real.rpow Real.sqrt 1 1 !![2; 0; 0]
            ((1 - 1 / (1 * norm Real.sqrt (!![2; 0; 0] : TransMatrix ℝ)))
              • (!![2; 0; 0] : TransMatrix ℝ))
          ≤ shrinkObjective Real.rpow Real.sqrt 1 1 !![2; 0; 0] z) :=
  C19_soft_thresholding 1 one_pos 1 le_rfl !![2; 0; 0]

/-- C20: for every `mu > 0`, every `p` with `0 < p < 1` and every `h` whose
norm exceeds the threshold, `shrink` with `nbIterShrink = 0` returns
`beta*h` with `beta = (alpha/||h|| + 1)/2` and `1/2 < beta < 1`; the result
is parallel to `h`, strictly shorter than `h` and longer than half of
`h`. -/
theorem C20_shrink_initial_beta (mu p : ℝ) (hmu : 0 < mu) (hp0 : 0 < p) (hp1 : p < 1)
    (h : TransMatrix ℝ)
    (hgt : shrinkThreshold (cPow Real.rpow) (fin mu) (fin p)
      < norm (cSqrt Real.sqrt) (h.map fin)) :
    shrink (cPow Real.rpow) (cSqrt Real.sqrt) (fin mu) (fin p) 0 (h.map fin)
        = (((((2 / mu) * (1 - p)) ^ (1 / (2 - p)) / norm Real.sqrt h + 1) / 2) • h).map fin ∧
      1 / 2 < (((2 / mu) * (1 - p)) ^ (1 / (2 - p)) / norm Real.sqrt h + 1) / 2 ∧
      (((2 / mu) * (1 - p)) ^ (1 / (2 - p)) / norm Real.sqrt h + 1) / 2 < 1 ∧
      norm Real.sqrt h / 2
        < norm Real.sqrt (((((2 / mu) * (1 - p)) ^ (1 / (2 - p)) / norm Real.sqrt h + 1) / 2) • h) ∧
      norm Real.sqrt (((((2 / mu) * (1 - p)) ^ (1 / (2 - p)) / norm Real.sqrt h + 1) / 2) • h)
        < norm Real.sqrt h := by
  rw [norm_map_fin_eq, shrinkThreshold_eq hmu hp1.le, Dbl.fin_lt_fin] at hgt
  have hbase : 0 < (2 / mu) * (1 - p) := mul_pos (by positivity) (by linarith)
  have hal : 0 < ((2 / mu) * (1 - p)) ^ (1 / (2 - p)) := Real.rpow_pos_of_pos hbase _
  have hrest : 0 < (p / mu) * (((2 / mu) * (1 - p)) ^ (1 / (2 - p))) ^ (p - 1) :=
    mul_pos (by positivity) (Real.rpow_pos_of_pos hal _)
  have hlt : ((2 / mu) * (1 - p)) ^ (1 / (2 - p)) < norm Real.sqrt h := by linarith
  have hpos : 0 < norm Real.sqrt h := lt_trans hal hlt
  have hq0 : 0 < ((2 / mu) * (1 - p)) ^ (1 / (2 - p)) / norm Real.sqrt h := div_pos hal hpos
  have hq1 : ((2 / mu) * (1 - p)) ^ (1 / (2 - p)) / norm Real.sqrt h < 1 :=
    (div_lt_one hpos).mpr hlt
  have hb0 : 0 ≤ (((2 / mu) * (1 - p)) ^ (1 / (2 - p)) / norm Real.sqrt h + 1) / 2 := by
    linarith
  refine ⟨?_, by linarith, by linarith, ?_, ?_⟩
  · apply shrink_of_gt 0 h (shrinkAlpha_eq hmu hp1.le) hpos
    · rw [norm_map_fin_eq, shrinkThreshold_eq hmu hp1.le, Dbl.fin_le_fin]
      exact not_le.mpr hgt
    · rfl
  · rw [norm_real_smul hb0]
    nlinarith
  · rw [norm_real_smul hb0]
    nlinarith

/-- Witness of C20: `mu = 1`, `p = 1/2`, `h = (2,0,0)`; the threshold is
`3/2` and the norm is 2. -/
theorem C20_shrink_initial_beta_witness :
    shrink (cPow Real.rpow) (cSqrt Real.sqrt) (fin 1) (fin (1 / 2)) 0
        ((!![2; 0; 0] : TransMatrix ℝ).map fin)
        = (((((2 / 1) * (1 - 1 / 2)) ^ ((1 : ℝ) / (2 - 1 / 2))
            / norm Real.sqrt (!![2; 0; 0] : TransMatrix ℝ) + 1) / 2)
            • (!![2; 0; 0] : TransMatrix ℝ)).map fin ∧
      1 / 2 < (((2 / 1) * (1 - 1 / 2)) ^ ((1 : ℝ) / (2 - 1 / 2))
        / norm Real.sqrt (!![2; 0; 0] : TransMatrix ℝ) + 1) / 2 ∧
      (((2 / 1) * (1 - 1 / 2)) ^ ((1 : ℝ) / (2 - 1 / 2))
        / norm Real.sqrt (!![2; 0; 0] : TransMatrix ℝ) + 1) / 2 < 1 ∧
      norm Real.sqrt (!![2; 0; 0] : TransMatrix ℝ) / 2
        < norm Real.sqrt (((((2 / 1) * (1 - 1 / 2)) ^ ((1 : ℝ) / (2 - 1 / 2))
            / norm Real.sqrt (!![2; 0; 0] : TransMatrix ℝ) + 1) / 2)
            • (!![2; 0; 0] : TransMatrix ℝ)) ∧
      norm Real.sqrt (((((2 / 1) * (1 - 1 / 2)) ^ ((1 : ℝ) / (2 - 1 / 2))
            / norm Real.sqrt (!![2; 0; 0] : TransMatrix ℝ) + 1) / 2)
            • (!![2; 0; 0] : TransMatrix ℝ))
        < norm Real.sqrt (!![2; 0; 0] : TransMatrix ℝ) :=
  C20_shrink_initial_beta 1 (1 / 2) one_pos (by norm_num) (by norm_num) !![2; 0; 0]
    (by
      rw [norm_map_fin_eq, shrinkThreshold_eq one_pos (by norm_num), Dbl.fin_lt_fin]
      have h1 : ((2 / 1) * (1 - 1 / 2) : ℝ) = 1 := by norm_num
      rw [h1, Real.one_rpow, Real.one_rpow, norm_real, Real.lt_sqrt (by norm_num)]
      norm_num [Matrix.vecHead, Matrix.vecTail])

/-- C12: for every point cloud whose points all lie in the plane `z = 0` and
every point `i` of it for which the `k >= 4` neighbours returned by the
query (valid row indices; for an exact query, the `k` nearest points, the
point itself included) are not all on a line, `estimateNormals` returns for
that point the normal `(0,0,1)` or `(0,0,-1)`, given an exact
eigen-decomposition of the covariance, the exact square root, and
`DBL_MAX > 0`. -/
theorem C12_planar_normal (lib : Libs ℝ) {n : Nat} (cloud : PointCloud ℝ n) (k : Nat)
    (i : Fin n) (hplane : ∀ j, cloud j 2 = 0) (_hk : 4 ≤ k)
    (_hidx : ∀ j : Fin k, lib.findNeighbors n cloud (cloud i) k j < n)
    (hncol : ¬ Collinear ℝ (Set.range (neighbourPoints lib cloud k i)))
    (heig : IsEigenDecomposition (neighbourCovariance lib cloud k i)
      (lib.eigenSolver (neighbourCovariance lib cloud k i)))
    (hsqrt : lib.sqrt = Real.sqrt) (hmax : 0 < lib.dblMax) :
    estimateNormals lib cloud k i = ![0, 0, 1] ∨ estimateNormals lib cloud k i = ![0, 0, -1] :=
  estimateNormals_planar lib cloud k i hplane hncol heig hsqrt hmax

/-- Witness of C12: the four points of `planarCloud` with `k = 4`; the query
returns the four rows, the covariance is `diag(2,2,0)` and the eigen-solver
returns the eigenvalues `(2,2,0)` with the identity matrix of
eigenvectors. -/
theorem C12_planar_normal_witness :
    estimateNormals (⟨Real.rpow, Real.sqrt, fun _ => ⟨1, 0, 1⟩, fun _ => ⟨![2, 2, 0], 1, 0⟩,
        fun _ _ _ _ j => j.val, 1⟩ : Libs ℝ) (planarCloud ℝ) 4 0 = ![0, 0, 1] ∨
      estimateNormals (⟨Real.rpow, Real.sqrt, fun _ => ⟨1, 0, 1⟩, fun _ => ⟨![2, 2, 0], 1, 0⟩,
        fun _ _ _ _ j => j.val, 1⟩ : Libs ℝ) (planarCloud ℝ) 4 0 = ![0, 0, -1] :=
  C12_planar_normal _ (planarCloud ℝ) 4 0 planarCloud_plane le_rfl (fun j => j.isLt)
    (by rw [planar_neighbourPoints _ (fun _ => rfl)]; exact planarCloud_not_collinear)
    (by
      rw [planar_covariance _ (fun _ => rfl)]
      refine ⟨rfl, by simp, ?_⟩
      simp)
    rfl one_pos

end IcpSparse
